import Mathlib

/-!
Shallow embedding of the persistence-and-knowledge subsystem of the
ActivePaper reading companion: the spaced-repetition scheduler, the
document / concept / review-card repositories, the concept co-occurrence
graph builder, the schema retry wrapper, and the search entry points.

JavaScript numbers are modelled as rationals, strings that undergo
case or whitespace normalization as lists of characters, and each
database table as a list of rows in insertion (rowid) order.
-/

namespace ActivePaper

/-- Character strings that undergo trimming and lowercasing. -/
abbrev Str := List Char

/-- The whitespace set stripped by the host language trim: the
WhiteSpace and LineTerminator code points, including the Unicode space
separators. -/
def wsChar (c : Char) : Bool :=
  c.toNat = 9 || c.toNat = 10 || c.toNat = 11 || c.toNat = 12 ||
  c.toNat = 13 || c.toNat = 32 || c.toNat = 160 || c.toNat = 5760 ||
  (8192 ≤ c.toNat && c.toNat ≤ 8202) || c.toNat = 8232 ||
  c.toNat = 8233 || c.toNat = 8239 || c.toNat = 8287 ||
  c.toNat = 12288 || c.toNat = 65279

/-- Leading-whitespace removal. -/
def trimLeft (s : Str) : Str := s.dropWhile wsChar

/-- Surrounding-whitespace removal, as performed by the string trim method. -/
def trimStr (s : Str) : Str := ((trimLeft s).reverse.dropWhile wsChar).reverse

/-- The storage layer LOWER function on one character: ASCII-only
lowercasing, leaving every non-ASCII character unchanged. -/
def sqlLowerChar (c : Char) : Char :=
  if 65 ≤ c.toNat ∧ c.toNat ≤ 90 then Char.ofNat (c.toNat + 32) else c

/-- The storage layer LOWER function. -/
def sqlLowerStr (s : Str) : Str := s.map sqlLowerChar

/-- The host language toLowerCase on one character, on the ASCII and
Latin-1 blocks: it lowercases the ASCII letters and also the Latin-1
uppercase letters (in contrast to the storage layer LOWER). Beyond
these blocks this model keeps the character unchanged, while the host
language lowercases further scripts as well. -/
def jsLowerChar (c : Char) : Char :=
  if 65 ≤ c.toNat ∧ c.toNat ≤ 90 then Char.ofNat (c.toNat + 32)
  else if 192 ≤ c.toNat ∧ c.toNat ≤ 222 ∧ c.toNat ≠ 215 then
    Char.ofNat (c.toNat + 32)
  else c

/-- The host language toLowerCase. -/
def jsLowerStr (s : Str) : Str := s.map jsLowerChar

/-- ASCII characters: the fragment on which the host language
lowercasing and the storage layer LOWER agree. -/
def asciiChar (c : Char) : Bool := c.toNat ≤ 127

/-- The rounding function of the host language: round half up. -/
def jsRound (x : ℚ) : ℤ := ⌊x + 1 / 2⌋

/-- Truthiness coercion applied to an optional numeric field: the host
language expression `x || null` maps an absent value and the number zero
to null. -/
def jsOrNull (x : Option ℚ) : Option ℚ :=
  match x with
  | some v => if v = 0 then none else some v
  | none => none

/-! ## Spaced-repetition scheduler (reviews repository) -/

/-- Result record of `calculateNextReview`. -/
structure ReviewCalc where
  intervalDays : ℚ
  easeFactor : ℚ
  deriving Repr, DecidableEq

/-- Floor of the ease factor (SM-2 constant `MIN_EASE_FACTOR`). -/
def MIN_EASE_FACTOR : ℚ := 13 / 10

/-- Ease factor seeded at card creation (`INITIAL_EASE_FACTOR`). -/
def INITIAL_EASE_FACTOR : ℚ := 5 / 2

/-- The SM-2 step `calculateNextReview(quality, currentInterval,
currentEaseFactor, reviewCount)`: clamps quality to [0, 5], updates the
ease factor with a floor of 1.3, and computes the next interval. -/
def calculateNextReview (quality currentInterval currentEaseFactor : ℚ)
    (reviewCount : ℕ) : ReviewCalc :=
  let q := max 0 (min 5 quality)
  let rawEase := currentEaseFactor +
    (1 / 10 - (5 - q) * (8 / 100 + (5 - q) * (2 / 100)))
  let newEaseFactor := max MIN_EASE_FACTOR rawEase
  let newInterval : ℚ :=
    if q < 3 then 1
    else if reviewCount = 0 then 1
    else if reviewCount = 1 then 6
    else (jsRound (currentInterval * newEaseFactor) : ℚ)
  ⟨newInterval, newEaseFactor⟩

/-! ## Row types -/

/-- A row of the documents table. -/
structure Document where
  id : String
  filename : String
  filepath : String
  last_opened_at : ℚ
  scroll_position : ℚ
  total_pages : Option ℚ
  created_at : ℚ
  deriving Repr, DecidableEq

/-- A row of the interactions table (the fields the search layer reads). -/
structure Interaction where
  id : String
  document_id : String
  selected_text : Str
  response : Str
  created_at : ℚ
  deriving Repr, DecidableEq

/-- A row of the concepts table. -/
structure Concept where
  id : String
  name : Str
  created_at : ℚ
  deriving Repr, DecidableEq

/-- A row of the document_concepts join table. -/
structure DCLink where
  document_id : String
  concept_id : String
  occurrence_count : ℕ
  deriving Repr, DecidableEq

/-- A row of the review_cards table. -/
structure ReviewCard where
  id : String
  interaction_id : String
  question : String
  answer : String
  next_review_at : ℚ
  interval_days : ℚ
  ease_factor : ℚ
  review_count : ℕ
  created_at : ℚ
  deriving Repr, DecidableEq

/-- The database state: one list of rows per table, in insertion order.
Rows of interaction_concepts are (interaction_id, concept_id) pairs. -/
structure Store where
  documents : List Document
  interactions : List Interaction
  concepts : List Concept
  interaction_concepts : List (String × String)
  document_concepts : List DCLink
  review_cards : List ReviewCard
  deriving Repr, DecidableEq

/-- The freshly migrated store: every table empty. -/
def emptyStore : Store := ⟨[], [], [], [], [], []⟩

/-! ## Documents repository -/

/-- `getOrCreateDocument(input)`: looks the filepath up; on a hit, updates
only last_opened_at of the found row; on a miss, inserts a fresh row.
Nondeterministic inputs of the source (`randomUUID()`, `Date.now()`) are
explicit arguments. -/
def getOrCreateDocument (filename filepath : String) (total_pages : Option ℚ)
    (freshId : String) (now : ℚ) (st : Store) : Document × Store :=
  match st.documents.find? (fun d => d.filepath = filepath) with
  | some existing =>
    let docs := st.documents.map fun d =>
      if d.id = existing.id then { d with last_opened_at := now } else d
    ({ existing with last_opened_at := now }, { st with documents := docs })
  | none =>
    let doc : Document :=
      { id := freshId, filename := filename, filepath := filepath,
        last_opened_at := now, scroll_position := 0,
        total_pages := jsOrNull total_pages, created_at := now }
    (doc, { st with documents := st.documents ++ [doc] })

/-! ## Concepts repository -/

/-- `getOrCreateConcept(name)`: the probe is the input normalized by the
host language (toLowerCase then trim); the match compares it against the
storage layer LOWER of the stored name; a miss inserts the trimmed
input. The two lowercasings differ outside ASCII. -/
def getOrCreateConcept (name : Str) (freshId : String) (now : ℚ)
    (st : Store) : Concept × Store :=
  let normalizedName := trimStr (jsLowerStr name)
  match st.concepts.find? (fun c => sqlLowerStr c.name = normalizedName) with
  | some existing => (existing, st)
  | none =>
    let c : Concept := ⟨freshId, trimStr name, now⟩
    (c, { st with concepts := st.concepts ++ [c] })

/-- `linkConceptToInteraction`: INSERT OR IGNORE into the composite-key
join table. -/
def linkConceptToInteraction (conceptId interactionId : String)
    (st : Store) : Store :=
  if (interactionId, conceptId) ∈ st.interaction_concepts then st
  else { st with interaction_concepts :=
          st.interaction_concepts ++ [(interactionId, conceptId)] }

/-- `linkConceptToDocument`: UPDATE incrementing occurrence_count of the
matching row; if no row changed, INSERT a row with count 1. -/
def linkConceptToDocument (conceptId documentId : String)
    (st : Store) : Store :=
  let changes := st.document_concepts.countP fun r =>
    r.document_id = documentId ∧ r.concept_id = conceptId
  if changes = 0 then
    { st with document_concepts :=
        st.document_concepts ++ [⟨documentId, conceptId, 1⟩] }
  else
    { st with document_concepts := st.document_concepts.map fun r =>
        if r.document_id = documentId ∧ r.concept_id = conceptId then
          { r with occurrence_count := r.occurrence_count + 1 }
        else r }

/-- First loop of `saveConceptsForInteraction`: get or create each named
concept in order, later lookups seeing earlier inserts. The id supply is
indexed by how many inserts have happened. -/
def getOrCreateConceptsBatch (gen : ℕ → String) (now : ℚ) :
    List Str → Store → ℕ → List Concept × Store × ℕ
  | [], st, k => ([], st, k)
  | name :: rest, st, k =>
    let normalizedName := trimStr (jsLowerStr name)
    match st.concepts.find? (fun c => sqlLowerStr c.name = normalizedName) with
    | some existing =>
      let r := getOrCreateConceptsBatch gen now rest st k
      (existing :: r.1, r.2.1, r.2.2)
    | none =>
      let c : Concept := ⟨gen k, trimStr name, now⟩
      let r := getOrCreateConceptsBatch gen now rest
        { st with concepts := st.concepts ++ [c] } (k + 1)
      (c :: r.1, r.2.1, r.2.2)

/-- `saveConceptsForInteraction(conceptNames, interactionId, documentId)`:
inside one transaction, get or create every concept, then insert the
interaction links (OR IGNORE), then upsert the document links. -/
def saveConceptsForInteraction (conceptNames : List Str)
    (interactionId documentId : String) (gen : ℕ → String) (now : ℚ)
    (st : Store) : List Concept × Store :=
  let r := getOrCreateConceptsBatch gen now conceptNames st 0
  let st2 := r.1.foldl
    (fun s c => linkConceptToInteraction c.id interactionId s) r.2.1
  let st3 := r.1.foldl
    (fun s c => linkConceptToDocument c.id documentId s) st2
  (r.1, st3)

/-! ## Reviews repository -/

/-- One day in milliseconds. -/
def DAY_MS : ℚ := 24 * 60 * 60 * 1000

/-- `createReviewCard(input)`: seeds interval 1, ease 2.5, count 0, first
review one day out. -/
def createReviewCard (interactionId question answer : String)
    (freshId : String) (now : ℚ) (st : Store) : ReviewCard × Store :=
  let card : ReviewCard :=
    { id := freshId, interaction_id := interactionId, question := question,
      answer := answer, next_review_at := now + DAY_MS, interval_days := 1,
      ease_factor := INITIAL_EASE_FACTOR, review_count := 0,
      created_at := now }
  (card, { st with review_cards := st.review_cards ++ [card] })

/-- `updateReviewCard(cardId, quality)`: returns the undefined sentinel
when the id is absent; otherwise applies the scheduler and writes the
merged card back. -/
def updateReviewCard (cardId : String) (quality : ℚ) (now : ℚ)
    (st : Store) : Option ReviewCard × Store :=
  match st.review_cards.find? (fun c => c.id = cardId) with
  | none => (none, st)
  | some card =>
    let res := calculateNextReview quality card.interval_days
      card.ease_factor card.review_count
    let nextReviewAt := now + res.intervalDays * DAY_MS
    let newReviewCount := if quality < 3 then 0 else card.review_count + 1
    let merge : ReviewCard → ReviewCard := fun c =>
      { c with next_review_at := nextReviewAt,
               interval_days := res.intervalDays,
               ease_factor := res.easeFactor,
               review_count := newReviewCount }
    (some (merge card),
     { st with review_cards := st.review_cards.map fun c =>
         if c.id = cardId then merge c else c })

/-! ## Concept graph builder -/

/-- A node of the concept graph. -/
structure ConceptWithOccurrences where
  id : String
  name : Str
  created_at : ℚ
  total_occurrences : ℕ
  document_count : ℕ
  deriving Repr, DecidableEq

/-- An edge of the concept graph. -/
structure ConceptLink where
  source : String
  target : String
  weight : ℕ
  deriving Repr, DecidableEq

/-- The node and edge view returned by `getConceptGraph`. -/
structure ConceptGraphData where
  nodes : List ConceptWithOccurrences
  links : List ConceptLink
  deriving Repr, DecidableEq

/-- `getAllConcepts()`: every concept with the sum of its document link
counts and its distinct-document count, sorted by total occurrences
descending. -/
def getAllConcepts (st : Store) : List ConceptWithOccurrences :=
  let rows := st.concepts.map fun c =>
    let mine := st.document_concepts.filter fun r => r.concept_id = c.id
    ConceptWithOccurrences.mk c.id c.name c.created_at
      ((mine.map fun r => r.occurrence_count).sum)
      ((mine.map fun r => r.document_id).dedup.length)
  rows.mergeSort fun a b => b.total_occurrences ≤ a.total_occurrences

/-- The multiset of ordered key pairs produced by the self-join of
interaction_concepts on interaction_id with the first concept id strictly
below the second. -/
def coPairs (st : Store) : List (String × String) :=
  st.interaction_concepts.flatMap fun r1 =>
    st.interaction_concepts.filterMap fun r2 =>
      if r1.1 = r2.1 ∧ r1.2 < r2.2 then some (r1.2, r2.2) else none

/-- `getConceptGraph()`: the nodes of `getAllConcepts` and one edge per
distinct co-occurring ordered pair, weighted by the group size of the
self-join, keeping only positive weights (the HAVING clause). -/
def getConceptGraph (st : Store) : ConceptGraphData :=
  let pairs := coPairs st
  let links := (pairs.dedup.map fun k =>
    ConceptLink.mk k.1 k.2 (pairs.count k)).filter fun e => 0 < e.weight
  ⟨getAllConcepts st, links⟩

/-! ## Trace semantics: the mutating repository calls -/

/-- One mutating repository call, with the nondeterministic inputs of the
source (fresh ids, clock readings, user data) as constructor arguments. -/
inductive Op where
  | getOrCreateDocument (filename filepath : String)
      (total_pages : Option ℚ) (freshId : String) (now : ℚ)
  | getOrCreateConcept (name : Str) (freshId : String) (now : ℚ)
  | linkConceptToInteraction (conceptId interactionId : String)
  | linkConceptToDocument (conceptId documentId : String)
  | saveConceptsForInteraction (conceptNames : List Str)
      (interactionId documentId : String) (gen : ℕ → String) (now : ℚ)
  | createReviewCard (interactionId question answer freshId : String)
      (now : ℚ)
  | updateReviewCard (cardId : String) (quality now : ℚ)

/-- The store after one repository call. -/
def Op.step (op : Op) (st : Store) : Store :=
  match op with
  | .getOrCreateDocument fn fp tp fid now =>
    (ActivePaper.getOrCreateDocument fn fp tp fid now st).2
  | .getOrCreateConcept n fid now =>
    (ActivePaper.getOrCreateConcept n fid now st).2
  | .linkConceptToInteraction c i =>
    ActivePaper.linkConceptToInteraction c i st
  | .linkConceptToDocument c d => ActivePaper.linkConceptToDocument c d st
  | .saveConceptsForInteraction ns i d gen now =>
    (ActivePaper.saveConceptsForInteraction ns i d gen now st).2
  | .createReviewCard i q a fid now =>
    (ActivePaper.createReviewCard i q a fid now st).2
  | .updateReviewCard cid q now =>
    (ActivePaper.updateReviewCard cid q now st).2

/-- The store reached by a sequence of repository calls from a store. -/
def runFrom (st : Store) : List Op → Store
  | [] => st
  | op :: rest => runFrom (op.step st) rest

/-- The store reached by a sequence of repository calls from the freshly
migrated store. -/
def runTrace (ops : List Op) : Store := runFrom emptyStore ops

/-! ## Schema manager: retry wrapper -/

/-- A storage-layer fault as observed by the retry wrapper: the driver
error code and message. -/
structure SqlError where
  code : String
  message : Str
  deriving Repr, DecidableEq

/-- `isMissingTableError(error)`: code SQLITE_ERROR and a message
containing the missing-table phrase. -/
def isMissingTableError (e : SqlError) : Bool :=
  e.code = "SQLITE_ERROR" && decide ("no such table".toList <:+: e.message)

/-- The schema state seen by the repair pass: the set of present tables
and views. -/
structure DbState where
  tables : List String
  deriving Repr, DecidableEq

/-- The full required object set of the current schema version, as
enumerated by the repository test suite. -/
def requiredTables : List String :=
  ["documents", "interactions", "concepts", "interaction_concepts",
   "document_concepts", "review_cards", "highlights", "bookmarks",
   "conversations", "conversation_messages", "documents_fts",
   "interactions_fts", "concepts_fts"]

/-- Modelled from the spec: `verifyAndRepairSchema` (defined in the
migrations module, whose current revision is absent from the sources)
recreates each required table that is missing, returns whether any repair
occurred together with the repaired list, and never drops an existing
table. -/
def verifyAndRepairSchema (db : DbState) : (Bool × List String) × DbState :=
  let missing := requiredTables.filter fun t => ¬ db.tables.contains t
  ((missing ≠ [], missing), ⟨db.tables ++ missing⟩)

/-- `withSchemaRetry(operation)`: run the operation; on a missing-table
fault, repair the schema and run the operation exactly once more,
propagating whatever the second run produces; propagate any other fault
unchanged. The operation is modelled as a state transformer that either
returns a value with the new state or fails leaving the state as it was. -/
def withSchemaRetry {T : Type} (operation : DbState → Except SqlError (T × DbState))
    (db : DbState) : Except SqlError (T × DbState) :=
  match operation db with
  | .ok r => .ok r
  | .error e =>
    if isMissingTableError e then operation (verifyAndRepairSchema db).2
    else .error e

/-! ## Search layer

Modelled from the spec: the search module (queries/search.ts) is absent
from the sources; only its test suite is present. Per the spec, empty or
whitespace-only queries short-circuit to an empty result without touching
the full-text index, characters with special meaning in the full-text
syntax are stripped before matching, matching is prefix-aware per token,
and a raw full-text query containing a special character would be a
malformed-query fault. -/

/-- Modelled from the spec: characters with special meaning in the
full-text query syntax. -/
def isFtsSpecial (c : Char) : Bool :=
  c = '"' || c = '*' || c = ':' || c = '^' || c = '(' || c = ')' ||
  c = '+' || c = '-'

/-- Modelled from the spec: query sanitization. Whitespace-only input
yields no query at all; otherwise the special characters are stripped. -/
def sanitizeFtsQuery (q : Str) : Option Str :=
  let t := trimStr q
  if t = [] then none else some (t.filter fun c => ¬ isFtsSpecial c)

/-- The whitespace-separated tokens of a string. -/
def wordsOf (s : Str) : List Str :=
  (s.splitOnP wsChar).filter fun w => w ≠ []

/-- Modelled from the spec: prefix-aware token matching. Every query
token must be a prefix of some token of the text. -/
def matchesFts (text q : Str) : Bool :=
  (wordsOf q).all fun qt => (wordsOf text).any fun tt => qt.isPrefixOf tt

/-- Modelled from the spec: the raw full-text engine. A query holding a
special character is a malformed-query fault; otherwise the matching rows
are returned. -/
def ftsQuery {α : Type} (items : List α) (textOf : α → Str) (q : Str) :
    Except Unit (List α) :=
  if q.any isFtsSpecial then .error ()
  else .ok (items.filter fun a => matchesFts (textOf a) q)

/-- Modelled from the spec: `searchDocuments(query, limit)` over
filenames. -/
def searchDocuments (st : Store) (q : Str) (limit : ℕ) :
    Except Unit (List Document) :=
  match sanitizeFtsQuery q with
  | none => .ok []
  | some s => (ftsQuery st.documents (fun d => d.filename.toList) s).map
      fun l => l.take limit

/-- Modelled from the spec: `searchInteractions(query, limit)` over
selected text and response. -/
def searchInteractions (st : Store) (q : Str) (limit : ℕ) :
    Except Unit (List Interaction) :=
  match sanitizeFtsQuery q with
  | none => .ok []
  | some s =>
    (ftsQuery st.interactions
      (fun i => i.selected_text ++ [' '] ++ i.response) s).map
      fun l => l.take limit

/-- Modelled from the spec: `searchConcepts(query, limit)` over concept
names. -/
def searchConcepts (st : Store) (q : Str) (limit : ℕ) :
    Except Unit (List Concept) :=
  match sanitizeFtsQuery q with
  | none => .ok []
  | some s => (ftsQuery st.concepts (fun c => c.name) s).map
      fun l => l.take limit

/-- The three parallel result lists of `searchAll`. -/
structure SearchAllResults where
  documents : List Document
  interactions : List Interaction
  concepts : List Concept
  deriving Repr, DecidableEq

/-- Modelled from the spec: `searchAll(query, limitPerType)` runs the
three searches with one shared per-type limit and returns the three
parallel lists. -/
def searchAll (st : Store) (q : Str) (limitPerType : ℕ) :
    Except Unit SearchAllResults :=
  match searchDocuments st q limitPerType with
  | .error e => .error e
  | .ok ds =>
    match searchInteractions st q limitPerType with
    | .error e => .error e
    | .ok is2 =>
      match searchConcepts st q limitPerType with
      | .error e => .error e
      | .ok cs => .ok ⟨ds, is2, cs⟩

/-- Modelled from the spec: `searchInteractionsInDocument(documentId,
query, limit)`, constrained to one document. -/
def searchInteractionsInDocument (st : Store) (documentId : String)
    (q : Str) (limit : ℕ) : Except Unit (List Interaction) :=
  match sanitizeFtsQuery q with
  | none => .ok []
  | some s =>
    (ftsQuery (st.interactions.filter fun i => i.document_id = documentId)
      (fun i => i.selected_text ++ [' '] ++ i.response) s).map
      fun l => l.take limit

/-! ## Observations and invariants used in the statements -/

/-- The composite key of a document_concepts row. -/
def dcKey (r : DCLink) : String × String := (r.document_id, r.concept_id)

/-- The primary-key constraint of document_concepts: at most one row per
(document_id, concept_id). -/
def dcInv (st : Store) : Prop := (st.document_concepts.map dcKey).Nodup

/-- The stored occurrence count for a (document, concept) pair: the sum
of occurrence_count over its document_concepts rows. -/
def dcCount (st : Store) (d c : String) : ℕ :=
  ((st.document_concepts.filter fun r =>
    r.document_id = d ∧ r.concept_id = c).map
    fun r => r.occurrence_count).sum

/-- The primary-key constraint of interaction_concepts: no duplicate
(interaction_id, concept_id) row. -/
def icInv (st : Store) : Prop := st.interaction_concepts.Nodup

/-- The distinct interaction ids linked to both concepts a and b. -/
def idsBoth (st : Store) (a b : String) : List String :=
  (st.interaction_concepts.map Prod.fst).dedup.filter fun i =>
    (i, a) ∈ st.interaction_concepts ∧ (i, b) ∈ st.interaction_concepts

/-- Row-wise count of co-occurrences: over the rows carrying concept a,
how many have a sibling row of the same interaction carrying concept b.
Under the primary-key constraint this is the number of interactions
linked to both. -/
def rowNumBoth (st : Store) (a b : String) : ℕ :=
  (st.interaction_concepts.filter fun r => r.2 = a).countP fun r =>
    (r.1, b) ∈ st.interaction_concepts

/-- The concepts produced by the first loop of
`saveConceptsForInteraction`, one per input name in order. -/
def savedConcepts (conceptNames : List Str) (gen : ℕ → String) (now : ℚ)
    (st : Store) : List Concept :=
  (getOrCreateConceptsBatch gen now conceptNames st 0).1

/-- A repository call whose concept-name inputs are all ASCII. -/
def opAsciiNames (op : Op) : Prop :=
  match op with
  | .getOrCreateConcept n _ _ => n.all asciiChar = true
  | .saveConceptsForInteraction ns _ _ _ _ =>
    ∀ n ∈ ns, n.all asciiChar = true
  | _ => True

/-- How many occurrence-count link events one repository call performs
for the pair (d, c) when run in a given store: one per direct
`linkConceptToDocument(c, d)` call, and one per entry of
`saveConceptsForInteraction` on document d whose name resolves to the
concept c in that store. -/
def opLinkEvents (op : Op) (st : Store) (d c : String) : ℕ :=
  match op with
  | .linkConceptToDocument c0 d0 => if d0 = d ∧ c0 = c then 1 else 0
  | .saveConceptsForInteraction ns _ d0 gen now =>
    if d0 = d then (savedConcepts ns gen now st).countP fun cc => cc.id = c
    else 0
  | _ => 0

/-- Total number of link events a call sequence performs for (d, c). -/
def traceEvents : List Op → Store → String → String → ℕ
  | [], _, _, _ => 0
  | op :: rest, st, d, c =>
    opLinkEvents op st d c + traceEvents rest (op.step st) d c

/-- Case-insensitive uniqueness of concept names: for every normalized
form, at most one concepts row matches it. -/
def conceptsUnique (st : Store) : Prop :=
  ∀ m : Str, ((st.concepts.filter fun c => sqlLowerStr c.name = m).length) ≤ 1

/-- Every stored review card respects the ease-factor floor. -/
def easeInv (st : Store) : Prop :=
  ∀ card ∈ st.review_cards, MIN_EASE_FACTOR ≤ card.ease_factor

/-- A concrete review card used to instantiate theorems with hypotheses. -/
def sampleCard : ReviewCard :=
  ⟨"card-1", "int-1", "question", "answer", 0, 6, 5 / 2, 2, 0⟩

/-- A concrete store holding only `sampleCard`. -/
def sampleStore : Store := { emptyStore with review_cards := [sampleCard] }

/-- A concrete document and one-row store for the frame witness. -/
def sampleDoc : Document := ⟨"doc-1", "a.pdf", "/tmp/a.pdf", 5, 0, none, 2⟩

/-- Store holding only `sampleDoc`. -/
def sampleDocStore : Store := { emptyStore with documents := [sampleDoc] }

/-- A concrete missing-table fault as raised by the storage driver. -/
def sampleMissingTableError : SqlError :=
  ⟨"SQLITE_ERROR", "no such table: highlights".toList⟩

/-- A concrete foreign-key constraint fault. -/
def sampleFkError : SqlError :=
  ⟨"SQLITE_CONSTRAINT_FOREIGNKEY", "FOREIGN KEY constraint failed".toList⟩

/-- A concrete partial schema state. -/
def sampleDbState : DbState := ⟨["documents", "interactions"]⟩

/-! # Theorems -/

/-- Clamping does not move quality across the pass threshold. -/
lemma clampQ_lt_three (q : ℚ) : max 0 (min 5 q) < 3 ↔ q < 3 := by
  rw [max_lt_iff, min_lt_iff]
  norm_num

/-- The updated ease factor never drops below the floor. -/
lemma minEase_le_calc (quality i ef : ℚ) (rc : ℕ) :
    MIN_EASE_FACTOR ≤ (calculateNextReview quality i ef rc).easeFactor :=
  le_max_left _ _

/-- Claim C1: after quality is clamped to [0, 5], the intervalDays
returned by calculateNextReview is 1 when the clamped quality is below 3,
else 1 when review_count is 0, else 6 when review_count is 1, else the
rounding of interval_days times the ease factor returned by the same
call. -/
theorem calculateNextReview_interval_spec
    (quality currentInterval currentEaseFactor : ℚ) (reviewCount : ℕ) :
    (calculateNextReview quality currentInterval currentEaseFactor
      reviewCount).intervalDays =
      if max 0 (min 5 quality) < 3 then 1
      else if reviewCount = 0 then 1
      else if reviewCount = 1 then 6
      else (jsRound (currentInterval *
        (calculateNextReview quality currentInterval currentEaseFactor
          reviewCount).easeFactor) : ℚ) := rfl

/-! Frame lemmas: which tables each repository call leaves alone. -/

lemma reviewCards_gocDoc (fn fp : String) (tp : Option ℚ) (fid : String)
    (now : ℚ) (st : Store) :
    ((getOrCreateDocument fn fp tp fid now st).2).review_cards =
      st.review_cards := by
  unfold getOrCreateDocument
  split <;> rfl

lemma reviewCards_gocCon (n : Str) (fid : String) (now : ℚ) (st : Store) :
    ((getOrCreateConcept n fid now st).2).review_cards = st.review_cards := by
  simp only [getOrCreateConcept]
  split <;> rfl

lemma reviewCards_linkCI (c i : String) (st : Store) :
    (linkConceptToInteraction c i st).review_cards = st.review_cards := by
  unfold linkConceptToInteraction
  split <;> rfl

lemma reviewCards_linkCD (c d : String) (st : Store) :
    (linkConceptToDocument c d st).review_cards = st.review_cards := by
  simp only [linkConceptToDocument]
  split <;> rfl

lemma reviewCards_batch (gen : ℕ → String) (now : ℚ) (ns : List Str)
    (st : Store) (k : ℕ) :
    ((getOrCreateConceptsBatch gen now ns st k).2.1).review_cards =
      st.review_cards := by
  induction ns generalizing st k with
  | nil => rfl
  | cons n rest ih =>
    simp only [getOrCreateConceptsBatch]
    split
    · exact ih st k
    · exact ih _ _

lemma reviewCards_foldl_linkCI (i0 : String) (cs : List Concept) :
    ∀ st : Store,
      (cs.foldl (fun s c => linkConceptToInteraction c.id i0 s)
        st).review_cards = st.review_cards := by
  induction cs with
  | nil => intro st; rfl
  | cons c rest ih =>
    intro st
    rw [List.foldl_cons, ih, reviewCards_linkCI]

lemma reviewCards_foldl_linkCD (d0 : String) (cs : List Concept) :
    ∀ st : Store,
      (cs.foldl (fun s c => linkConceptToDocument c.id d0 s)
        st).review_cards = st.review_cards := by
  induction cs with
  | nil => intro st; rfl
  | cons c rest ih =>
    intro st
    rw [List.foldl_cons, ih, reviewCards_linkCD]

lemma reviewCards_save (ns : List Str) (i0 d0 : String) (gen : ℕ → String)
    (now : ℚ) (st : Store) :
    ((saveConceptsForInteraction ns i0 d0 gen now st).2).review_cards =
      st.review_cards := by
  unfold saveConceptsForInteraction
  rw [reviewCards_foldl_linkCD, reviewCards_foldl_linkCI, reviewCards_batch]

/-- Each repository call keeps every stored ease factor at or above the
floor. -/
lemma easeInv_step (op : Op) (st : Store) (h : easeInv st) :
    easeInv (op.step st) := by
  cases op with
  | getOrCreateDocument fn fp tp fid now =>
    intro card hc
    rw [Op.step, reviewCards_gocDoc] at hc
    exact h card hc
  | getOrCreateConcept n fid now =>
    intro card hc
    rw [Op.step, reviewCards_gocCon] at hc
    exact h card hc
  | linkConceptToInteraction c i =>
    intro card hc
    rw [Op.step, reviewCards_linkCI] at hc
    exact h card hc
  | linkConceptToDocument c d =>
    intro card hc
    rw [Op.step, reviewCards_linkCD] at hc
    exact h card hc
  | saveConceptsForInteraction ns i d gen now =>
    intro card hc
    rw [Op.step, reviewCards_save] at hc
    exact h card hc
  | createReviewCard i q a fid now =>
    intro card hc
    rw [Op.step] at hc
    unfold createReviewCard at hc
    rcases List.mem_append.mp hc with hmem | hmem
    · exact h card hmem
    · rcases List.mem_singleton.mp hmem with rfl
      show MIN_EASE_FACTOR ≤ INITIAL_EASE_FACTOR
      rw [MIN_EASE_FACTOR, INITIAL_EASE_FACTOR]
      norm_num
  | updateReviewCard cid q now =>
    intro card hc
    rw [Op.step] at hc
    unfold updateReviewCard at hc
    rcases hfind : st.review_cards.find? (fun c => c.id = cid) with _ | found
    · rw [hfind] at hc
      exact h card hc
    · rw [hfind] at hc
      simp only at hc
      rcases List.mem_map.mp hc with ⟨c0, hc0, heq⟩
      by_cases hid : c0.id = cid
      · rw [if_pos hid] at heq
        rw [← heq]
        exact minEase_le_calc q found.interval_days found.ease_factor
          found.review_count
      · rw [if_neg hid] at heq
        rw [← heq]
        exact h c0 hc0

/-- The ease floor holds along every call sequence. -/
lemma easeInv_runFrom (ops : List Op) :
    ∀ st : Store, easeInv st → easeInv (runFrom st ops) := by
  induction ops with
  | nil => intro st h; exact h
  | cons op rest ih =>
    intro st h
    exact ih _ (easeInv_step op st h)

/-- Claim C2: the ease factor returned by calculateNextReview equals
max(1.3, ease + (0.1 − (5 − q)(0.08 + (5 − q)·0.02))) with q the clamped
quality; createReviewCard seeds ease 2.5; and along any call sequence
every stored review card keeps ease_factor at least 1.3. -/
theorem easeFactor_formula_and_floor :
    (∀ (quality currentInterval currentEaseFactor : ℚ) (reviewCount : ℕ),
      (calculateNextReview quality currentInterval currentEaseFactor
        reviewCount).easeFactor =
        max (13 / 10) (currentEaseFactor +
          (1 / 10 - (5 - max 0 (min 5 quality)) *
            (8 / 100 + (5 - max 0 (min 5 quality)) * (2 / 100))))) ∧
    (∀ (iid q a fid : String) (now : ℚ) (st : Store),
      ((createReviewCard iid q a fid now st).1).ease_factor = 5 / 2) ∧
    (∀ ops : List Op, ∀ card ∈ (runTrace ops).review_cards,
      (13 / 10 : ℚ) ≤ card.ease_factor) := by
  refine ⟨fun _ _ _ _ => rfl, fun _ _ _ _ _ _ => rfl, fun ops card hc => ?_⟩
  have h0 : easeInv emptyStore := by
    intro c hc0
    simp [emptyStore] at hc0
  exact easeInv_runFrom ops emptyStore h0 card hc

/-- Witness for claim C2: the card created by one createReviewCard call
is in the resulting store and satisfies the floor there. -/
theorem easeFactor_formula_and_floor_witness :
    ((createReviewCard "int-1" "q" "a" "card-1" 0 emptyStore).1 ∈
      (runTrace [Op.createReviewCard "int-1" "q" "a" "card-1" 0]).review_cards)
    ∧ (13 / 10 : ℚ) ≤
      ((createReviewCard "int-1" "q" "a" "card-1" 0 emptyStore).1).ease_factor := by
  have hmem : (createReviewCard "int-1" "q" "a" "card-1" 0 emptyStore).1 ∈
      (runTrace [Op.createReviewCard "int-1" "q" "a" "card-1" 0]).review_cards := by
    show _ ∈ [(createReviewCard "int-1" "q" "a" "card-1" 0 emptyStore).1]
    exact List.mem_singleton_self _
  exact ⟨hmem, easeFactor_formula_and_floor.2.2
    [Op.createReviewCard "int-1" "q" "a" "card-1" 0] _ hmem⟩

/-- Claim C9: updateReviewCard on an absent card id returns the
undefined sentinel and leaves the store (hence every stored card)
unchanged; on a present card it returns the merged card, whose
review_count is 0 when the clamped quality is below 3 and the previous
review_count plus one otherwise. -/
theorem updateReviewCard_absent_and_merge :
    (∀ (st : Store) (cardId : String) (quality now : ℚ),
      (∀ c ∈ st.review_cards, c.id ≠ cardId) →
      updateReviewCard cardId quality now st = (none, st)) ∧
    (∀ (st : Store) (cardId : String) (quality now : ℚ)
      (card : ReviewCard),
      st.review_cards.find? (fun c => c.id = cardId) = some card →
      ∃ ret : ReviewCard, (updateReviewCard cardId quality now st).1 =
        some ret ∧
        ret.review_count =
          (if max 0 (min 5 quality) < 3 then 0 else card.review_count + 1) ∧
        ret.id = card.id ∧ ret.interaction_id = card.interaction_id ∧
        ret.question = card.question ∧ ret.answer = card.answer) := by
  constructor
  · intro st cardId quality now h
    have hfind : st.review_cards.find? (fun c => c.id = cardId) = none := by
      rw [List.find?_eq_none]
      intro c hc
      simpa using h c hc
    unfold updateReviewCard
    rw [hfind]
  · intro st cardId quality now card hfind
    unfold updateReviewCard
    rw [hfind]
    refine ⟨_, rfl, ?_, rfl, rfl, rfl, rfl⟩
    show (if quality < 3 then 0 else card.review_count + 1) = _
    exact if_congr (clampQ_lt_three quality).symm rfl rfl

/-- Witness for claim C9: both branches at a concrete store holding one
card with id card-1: an absent id yields the sentinel untouched store,
and quality 5 on the present card advances review_count from 2 to 3. -/
theorem updateReviewCard_absent_and_merge_witness :
    ((∀ c ∈ sampleStore.review_cards, c.id ≠ "missing-id") ∧
      updateReviewCard "missing-id" 5 1000 sampleStore =
        (none, sampleStore)) ∧
    (sampleStore.review_cards.find? (fun c => c.id = "card-1") =
       some sampleCard ∧
     ∃ ret : ReviewCard, (updateReviewCard "card-1" 5 1000 sampleStore).1 =
       some ret ∧
       ret.review_count =
         (if max 0 (min 5 (5 : ℚ)) < 3 then 0
          else sampleCard.review_count + 1) ∧
       ret.id = sampleCard.id ∧
       ret.interaction_id = sampleCard.interaction_id ∧
       ret.question = sampleCard.question ∧
       ret.answer = sampleCard.answer) := by
  have habs : ∀ c ∈ sampleStore.review_cards, c.id ≠ "missing-id" := by
    intro c hc
    rcases List.mem_singleton.mp hc with rfl
    decide
  have hfind : sampleStore.review_cards.find? (fun c => c.id = "card-1") =
      some sampleCard := rfl
  exact ⟨⟨habs,
      updateReviewCard_absent_and_merge.1 sampleStore "missing-id" 5 1000
        habs⟩,
    ⟨hfind,
      updateReviewCard_absent_and_merge.2 sampleStore "card-1" 5 1000
        sampleCard hfind⟩⟩

/-! Document lookup helper lemmas. -/

/-- Updating last_opened_at keeps the filepath. -/
lemma updateLast_filepath (x : String) (n : ℚ) (d : Document) :
    (if d.id = x then { d with last_opened_at := n } else d).filepath =
      d.filepath := by
  split <;> rfl

/-- Updating last_opened_at keeps the id. -/
lemma updateLast_id (x : String) (n : ℚ) (d : Document) :
    (if d.id = x then { d with last_opened_at := n } else d).id = d.id := by
  split <;> rfl

/-- The matched row receives the new last_opened_at. -/
lemma updateLast_last (x : String) (n : ℚ) (d : Document) (h : d.id = x) :
    (if d.id = x then { d with last_opened_at := n } else d).last_opened_at
      = n := by
  rw [if_pos h]

/-- Finding by filepath commutes with any row map preserving filepaths. -/
lemma find?_filepath_map (g : Document → Document)
    (hg : ∀ d, (g d).filepath = d.filepath) (l : List Document) (p : String) :
    (l.map g).find? (fun d => d.filepath = p) =
      (l.find? (fun d => d.filepath = p)).map g := by
  induction l with
  | nil => rfl
  | cons d t ih =>
    by_cases hd : d.filepath = p
    · rw [List.map_cons, List.find?_cons_of_pos, List.find?_cons_of_pos]
      · rfl
      · simpa using hd
      · simp [hg, hd]
    · rw [List.map_cons, List.find?_cons_of_neg, List.find?_cons_of_neg, ih]
      · simpa using hd
      · simp [hg, hd]

/-- A filepath-preserving row map does not change how many rows carry a
given filepath. -/
lemma filter_filepath_length_map (g : Document → Document)
    (hg : ∀ d, (g d).filepath = d.filepath) (l : List Document) (p : String) :
    ((l.map g).filter (fun d => d.filepath = p)).length =
      (l.filter (fun d => d.filepath = p)).length := by
  rw [← List.countP_eq_length_filter, ← List.countP_eq_length_filter,
    List.countP_map]
  apply List.countP_congr
  intro d _
  simp [Function.comp, hg]

/-- With pairwise distinct filepaths, a row with the wanted filepath is
counted exactly once. -/
lemma filter_filepath_length_one (l : List Document) (p : String)
    (hnd : (l.map Document.filepath).Nodup) (r : Document) (hr : r ∈ l)
    (hp : r.filepath = p) :
    (l.filter (fun d => d.filepath = p)).length = 1 := by
  induction l with
  | nil => cases hr
  | cons d t ih =>
    rw [List.map_cons, List.nodup_cons] at hnd
    rcases List.mem_cons.mp hr with rfl | hrt
    · rw [List.filter_cons_of_pos (by simpa using hp)]
      have ht : t.filter (fun d => d.filepath = p) = [] := by
        rw [List.filter_eq_nil_iff]
        intro x hx
        simp only [decide_eq_true_eq]
        intro hxp
        refine hnd.1 ?_
        rw [hp, ← hxp]
        exact List.mem_map_of_mem _ hx
      rw [ht]
      rfl
    · have hd : ¬ (d.filepath = p) := by
        intro hdp
        refine hnd.1 ?_
        rw [hdp, ← hp]
        exact List.mem_map_of_mem _ hrt
      rw [List.filter_cons_of_neg (by simpa using hd)]
      exact ih hnd.2 hrt

/-- Claim C4: two getOrCreateDocument calls with one filepath return the
same id, leave exactly one row with that filepath, and the second call
stamps that row with its own current time. -/
theorem getOrCreateDocument_filepath_identity
    (st : Store) (fn1 fn2 p : String) (tp1 tp2 : Option ℚ)
    (id1 id2 : String) (now1 now2 : ℚ)
    (hnd : (st.documents.map Document.filepath).Nodup)
    (r1 : Document) (st1 : Store)
    (h1 : getOrCreateDocument fn1 p tp1 id1 now1 st = (r1, st1))
    (r2 : Document) (st2 : Store)
    (h2 : getOrCreateDocument fn2 p tp2 id2 now2 st1 = (r2, st2)) :
    r2.id = r1.id ∧
    (st2.documents.filter (fun d => d.filepath = p)).length = 1 ∧
    (∀ d ∈ st2.documents, d.filepath = p →
      d.last_opened_at = now2 ∧ d.id = r1.id) := by
  unfold getOrCreateDocument at h1
  rcases hf1 : st.documents.find? (fun d => d.filepath = p) with _ | r
  all_goals rw [hf1] at h1
  case some =>
    have hrmem : r ∈ st.documents := List.mem_of_find?_eq_some hf1
    have hrp : r.filepath = p := by
      have := List.find?_some hf1
      simpa using this
    obtain ⟨hr1, hst1⟩ := Prod.mk.injEq .. ▸ h1
    set g : Document → Document := fun d =>
      if d.id = r.id then { d with last_opened_at := now1 } else d with hg
    have hgp : ∀ d, (g d).filepath = d.filepath := fun d =>
      updateLast_filepath r.id now1 d
    have hst1docs : st1.documents = st.documents.map g := by
      rw [← hst1]
    unfold getOrCreateDocument at h2
    have hf2 : st1.documents.find? (fun d => d.filepath = p) = some (g r) := by
      rw [hst1docs, find?_filepath_map g hgp, hf1]
      rfl
    rw [hf2] at h2
    obtain ⟨hr2, hst2⟩ := Prod.mk.injEq .. ▸ h2
    set g2 : Document → Document := fun d =>
      if d.id = (g r).id then { d with last_opened_at := now2 } else d
      with hg2
    have hg2p : ∀ d, (g2 d).filepath = d.filepath := fun d =>
      updateLast_filepath (g r).id now2 d
    have hst2docs : st2.documents = (st.documents.map g).map g2 := by
      rw [← hst2, hst1docs]
    have hgrid : (g r).id = r.id := updateLast_id r.id now1 r
    refine ⟨?_, ?_, ?_⟩
    · rw [← hr2, ← hr1]
      show (g r).id = r.id
      exact hgrid
    · rw [hst2docs, filter_filepath_length_map g2 hg2p,
        filter_filepath_length_map g hgp]
      exact filter_filepath_length_one st.documents p hnd r hrmem hrp
    · intro d hd hdp
      rw [hst2docs] at hd
      rcases List.mem_map.mp hd with ⟨d1, hd1, hde⟩
      rcases List.mem_map.mp hd1 with ⟨d0, hd0, hd1e⟩
      have hd0p : d0.filepath = p := by
        rw [← hdp, ← hde, hg2p, ← hd1e, hgp]
      have hd0r : d0 = r :=
        List.inj_on_of_nodup_map hnd hd0 hrmem (by rw [hd0p, hrp])
      subst hd0r
      rw [← hde, ← hd1e]
      constructor
      · exact updateLast_last (g d0).id now2 (g d0) rfl
      · rw [← hr1]
        show (g2 (g d0)).id = d0.id
        rw [updateLast_id (g d0).id now2 (g d0)]
        exact updateLast_id d0.id now1 d0
  case none =>
    obtain ⟨hr1, hst1⟩ := Prod.mk.injEq .. ▸ h1
    set nd : Document :=
      { id := id1, filename := fn1, filepath := p, last_opened_at := now1,
        scroll_position := 0, total_pages := jsOrNull tp1,
        created_at := now1 } with hnddef
    have hst1docs : st1.documents = st.documents ++ [nd] := by
      rw [← hst1]
    unfold getOrCreateDocument at h2
    have hndp : nd.filepath = p := by rw [hnddef]
    have hf2 : st1.documents.find? (fun d => d.filepath = p) = some nd := by
      rw [hst1docs, List.find?_append, hf1]
      show (List.find? (fun d => decide (d.filepath = p)) [nd]) = some nd
      rw [List.find?_cons_of_pos]
      simp [hndp]
    rw [hf2] at h2
    obtain ⟨hr2, hst2⟩ := Prod.mk.injEq .. ▸ h2
    set g2 : Document → Document := fun d =>
      if d.id = nd.id then { d with last_opened_at := now2 } else d with hg2
    have hg2p : ∀ d, (g2 d).filepath = d.filepath := fun d =>
      updateLast_filepath nd.id now2 d
    have hst2docs : st2.documents = (st.documents ++ [nd]).map g2 := by
      rw [← hst2, hst1docs]
    have hnone : ∀ d ∈ st.documents, ¬ (d.filepath = p) := by
      intro d hd
      have := List.find?_eq_none.mp hf1 d hd
      simpa using this
    refine ⟨?_, ?_, ?_⟩
    · rw [← hr2, ← hr1]
    · rw [hst2docs, filter_filepath_length_map g2 hg2p,
        List.filter_append]
      have h0 : st.documents.filter (fun d => d.filepath = p) = [] := by
        rw [List.filter_eq_nil_iff]
        intro x hx
        simpa using hnone x hx
      rw [h0]
      simp [hndp]
    · intro d hd hdp
      rw [hst2docs] at hd
      rcases List.mem_map.mp hd with ⟨d0, hd0, hde⟩
      have hd0p : d0.filepath = p := by
        rw [← hdp, ← hde, hg2p]
      rcases List.mem_append.mp hd0 with hmem | hmem
      · exact absurd hd0p (hnone d0 hmem)
      · rcases List.mem_singleton.mp hmem with rfl
        rw [← hde]
        constructor
        · exact updateLast_last nd.id now2 nd rfl
        · rw [← hr1]
          exact updateLast_id nd.id now2 nd

/-- Witness for claim C4: both calls on the fresh store. -/
theorem getOrCreateDocument_filepath_identity_witness :
    ((emptyStore.documents.map Document.filepath).Nodup) ∧
    ((getOrCreateDocument "b.pdf" "/tmp/x.pdf" none "doc-2" 7
        (getOrCreateDocument "a.pdf" "/tmp/x.pdf" none "doc-1" 3
          emptyStore).2).1.id =
      (getOrCreateDocument "a.pdf" "/tmp/x.pdf" none "doc-1" 3
        emptyStore).1.id ∧
    (((getOrCreateDocument "b.pdf" "/tmp/x.pdf" none "doc-2" 7
        (getOrCreateDocument "a.pdf" "/tmp/x.pdf" none "doc-1" 3
          emptyStore).2).2).documents.filter
      (fun d => d.filepath = "/tmp/x.pdf")).length = 1 ∧
    (∀ d ∈ ((getOrCreateDocument "b.pdf" "/tmp/x.pdf" none "doc-2" 7
        (getOrCreateDocument "a.pdf" "/tmp/x.pdf" none "doc-1" 3
          emptyStore).2).2).documents, d.filepath = "/tmp/x.pdf" →
      d.last_opened_at = 7 ∧
      d.id = (getOrCreateDocument "a.pdf" "/tmp/x.pdf" none "doc-1" 3
        emptyStore).1.id)) := by
  have hnd : (emptyStore.documents.map Document.filepath).Nodup :=
    List.nodup_nil
  exact ⟨hnd, getOrCreateDocument_filepath_identity emptyStore "a.pdf"
    "b.pdf" "/tmp/x.pdf" none none "doc-1" "doc-2" 3 7 hnd _ _ rfl _ _ rfl⟩

/-- Claim C10: when the filepath already has a row, getOrCreateDocument
writes only that row's last_opened_at: every other table is untouched,
the documents rows keep their positions, and each row keeps filename,
filepath, scroll_position, total_pages and created_at, with
last_opened_at rewritten only on the matched row (the input filename and
total_pages play no part). -/
theorem getOrCreateDocument_existing_frame
    (st : Store) (fn p : String) (tp : Option ℚ) (fid : String) (now : ℚ)
    (r : Document)
    (h : st.documents.find? (fun d => d.filepath = p) = some r)
    (rdoc : Document) (st2 : Store)
    (hout : getOrCreateDocument fn p tp fid now st = (rdoc, st2)) :
    st2.interactions = st.interactions ∧
    st2.concepts = st.concepts ∧
    st2.interaction_concepts = st.interaction_concepts ∧
    st2.document_concepts = st.document_concepts ∧
    st2.review_cards = st.review_cards ∧
    st2.documents.length = st.documents.length ∧
    List.Forall₂ (fun d0 d1 =>
      d1.id = d0.id ∧ d1.filename = d0.filename ∧
      d1.filepath = d0.filepath ∧
      d1.scroll_position = d0.scroll_position ∧
      d1.total_pages = d0.total_pages ∧ d1.created_at = d0.created_at ∧
      d1.last_opened_at =
        (if d0.id = r.id then now else d0.last_opened_at))
      st.documents st2.documents := by
  unfold getOrCreateDocument at hout
  rw [h] at hout
  obtain ⟨hr, hst⟩ := Prod.mk.injEq .. ▸ hout
  subst hst
  refine ⟨rfl, rfl, rfl, rfl, rfl, by simp, ?_⟩
  show List.Forall₂ _ st.documents (st.documents.map fun d =>
    if d.id = r.id then { d with last_opened_at := now } else d)
  rw [List.forall₂_map_right_iff]
  rw [List.forall₂_same]
  intro d _
  by_cases hid : d.id = r.id
  · rw [if_pos hid, if_pos hid]
    exact ⟨rfl, rfl, rfl, rfl, rfl, rfl, rfl⟩
  · rw [if_neg hid, if_neg hid]
    exact ⟨rfl, rfl, rfl, rfl, rfl, rfl, rfl⟩

/-- Witness for claim C10: reopening the stored document with a
different filename and total_pages touches only last_opened_at. -/
theorem getOrCreateDocument_existing_frame_witness :
    (sampleDocStore.documents.find? (fun d => d.filepath = "/tmp/a.pdf") =
      some sampleDoc) ∧
    ((getOrCreateDocument "other.pdf" "/tmp/a.pdf" (some 9) "doc-9" 77
        sampleDocStore).2.interactions = sampleDocStore.interactions ∧
     (getOrCreateDocument "other.pdf" "/tmp/a.pdf" (some 9) "doc-9" 77
        sampleDocStore).2.concepts = sampleDocStore.concepts ∧
     (getOrCreateDocument "other.pdf" "/tmp/a.pdf" (some 9) "doc-9" 77
        sampleDocStore).2.interaction_concepts =
          sampleDocStore.interaction_concepts ∧
     (getOrCreateDocument "other.pdf" "/tmp/a.pdf" (some 9) "doc-9" 77
        sampleDocStore).2.document_concepts =
          sampleDocStore.document_concepts ∧
     (getOrCreateDocument "other.pdf" "/tmp/a.pdf" (some 9) "doc-9" 77
        sampleDocStore).2.review_cards = sampleDocStore.review_cards ∧
     (getOrCreateDocument "other.pdf" "/tmp/a.pdf" (some 9) "doc-9" 77
        sampleDocStore).2.documents.length =
          sampleDocStore.documents.length ∧
     List.Forall₂ (fun d0 d1 =>
       d1.id = d0.id ∧ d1.filename = d0.filename ∧
       d1.filepath = d0.filepath ∧
       d1.scroll_position = d0.scroll_position ∧
       d1.total_pages = d0.total_pages ∧ d1.created_at = d0.created_at ∧
       d1.last_opened_at =
         (if d0.id = sampleDoc.id then 77 else d0.last_opened_at))
       sampleDocStore.documents
       (getOrCreateDocument "other.pdf" "/tmp/a.pdf" (some 9) "doc-9" 77
         sampleDocStore).2.documents) := by
  have hfind : sampleDocStore.documents.find?
      (fun d => d.filepath = "/tmp/a.pdf") = some sampleDoc := rfl
  exact ⟨hfind, getOrCreateDocument_existing_frame sampleDocStore
    "other.pdf" "/tmp/a.pdf" (some 9) "doc-9" 77 sampleDoc hfind _ _ rfl⟩

/-- Claim C7: withSchemaRetry retries a missing-table fault exactly once
after repairing the schema, propagating whatever the retried run
produces, and propagates every other fault unchanged with no repair and
no retry; a fault whose code is not SQLITE_ERROR (such as a foreign-key
constraint violation) is never treated as missing-table. -/
theorem withSchemaRetry_policy :
    (∀ (T : Type) (operation : DbState → Except SqlError (T × DbState))
      (db : DbState) (e : SqlError),
      operation db = .error e → isMissingTableError e = false →
      withSchemaRetry operation db = .error e) ∧
    (∀ (T : Type) (operation : DbState → Except SqlError (T × DbState))
      (db : DbState) (e : SqlError),
      operation db = .error e → isMissingTableError e = true →
      withSchemaRetry operation db =
        operation (verifyAndRepairSchema db).2) ∧
    (∀ code msg : String, code ≠ "SQLITE_ERROR" →
      isMissingTableError ⟨code, msg.toList⟩ = false) := by
  refine ⟨?_, ?_, ?_⟩
  · intro T operation db e hop hmiss
    unfold withSchemaRetry
    rw [hop]
    simp [hmiss]
  · intro T operation db e hop hmiss
    unfold withSchemaRetry
    rw [hop]
    simp [hmiss]
  · intro code msg hcode
    unfold isMissingTableError
    simp [hcode]

/-- Witness for claim C7: a foreign-key fault propagates unchanged, and
a missing-table fault is retried once on the repaired state. -/
theorem withSchemaRetry_policy_witness :
    (((fun _ : DbState => (.error sampleFkError : Except SqlError
        (Unit × DbState))) sampleDbState = .error sampleFkError) ∧
      isMissingTableError sampleFkError = false ∧
      withSchemaRetry (fun _ : DbState => (.error sampleFkError :
        Except SqlError (Unit × DbState))) sampleDbState =
        .error sampleFkError) ∧
    (((fun _ : DbState => (.error sampleMissingTableError : Except SqlError
        (Unit × DbState))) sampleDbState = .error sampleMissingTableError) ∧
      isMissingTableError sampleMissingTableError = true ∧
      withSchemaRetry (fun _ : DbState => (.error sampleMissingTableError :
        Except SqlError (Unit × DbState))) sampleDbState =
        (fun _ : DbState => (.error sampleMissingTableError : Except SqlError
          (Unit × DbState))) (verifyAndRepairSchema sampleDbState).2) := by
  have hfk : isMissingTableError sampleFkError = false := by decide
  have hmt : isMissingTableError sampleMissingTableError = true := by decide
  exact ⟨⟨rfl, hfk, withSchemaRetry_policy.1 Unit _ sampleDbState
      sampleFkError rfl hfk⟩,
    ⟨rfl, hmt, withSchemaRetry_policy.2.1 Unit _ sampleDbState
      sampleMissingTableError rfl hmt⟩⟩

/-! Search sanitization lemmas. -/

/-- A sanitized query holds no full-text special character. -/
lemma sanitize_no_special (q s : Str) (h : sanitizeFtsQuery q = some s) :
    s.any isFtsSpecial = false := by
  simp only [sanitizeFtsQuery] at h
  split at h
  · cases h
  · rcases Option.some.injEq .. ▸ h with rfl
    rw [List.any_eq_false]
    intro c hc
    have := (List.mem_filter.mp hc).2
    simpa using this

/-- On a whitespace-only query, sanitization yields no query. -/
lemma sanitize_ws (q : Str) (h : trimStr q = []) :
    sanitizeFtsQuery q = none := by
  unfold sanitizeFtsQuery
  rw [if_pos h]

/-- A query with no special character never faults the engine. -/
lemma ftsQuery_ok {α : Type} (items : List α) (textOf : α → Str) (s : Str)
    (h : s.any isFtsSpecial = false) :
    ftsQuery items textOf s =
      .ok (items.filter fun a => matchesFts (textOf a) s) := by
  unfold ftsQuery
  rw [if_neg]
  simp [h]

/-- Claim C8: every search entry point returns a result set for every
input string (never a malformed-query fault), and an empty or
whitespace-only query short-circuits to the empty result set. -/
theorem search_never_faults_and_short_circuits :
    (∀ (st : Store) (q : Str) (lim : ℕ) (did : String),
      (∃ r, searchDocuments st q lim = .ok r) ∧
      (∃ r, searchInteractions st q lim = .ok r) ∧
      (∃ r, searchConcepts st q lim = .ok r) ∧
      (∃ r, searchAll st q lim = .ok r) ∧
      (∃ r, searchInteractionsInDocument st did q lim = .ok r)) ∧
    (∀ (st : Store) (q : Str) (lim : ℕ) (did : String), trimStr q = [] →
      searchDocuments st q lim = .ok [] ∧
      searchInteractions st q lim = .ok [] ∧
      searchConcepts st q lim = .ok [] ∧
      searchAll st q lim = .ok ⟨[], [], []⟩ ∧
      searchInteractionsInDocument st did q lim = .ok []) := by
  have hdoc : ∀ (st : Store) (q : Str) (lim : ℕ),
      ∃ r, searchDocuments st q lim = .ok r := by
    intro st q lim
    unfold searchDocuments
    rcases hs : sanitizeFtsQuery q with _ | s
    · exact ⟨[], rfl⟩
    · refine ⟨List.take lim (st.documents.filter fun d =>
        matchesFts d.filename.toList s), ?_⟩
      show Except.map (fun l => List.take lim l)
        (ftsQuery st.documents (fun d => d.filename.toList) s) = Except.ok _
      rw [ftsQuery_ok _ _ s (sanitize_no_special q s hs)]
      rfl
  have hint : ∀ (st : Store) (q : Str) (lim : ℕ),
      ∃ r, searchInteractions st q lim = .ok r := by
    intro st q lim
    unfold searchInteractions
    rcases hs : sanitizeFtsQuery q with _ | s
    · exact ⟨[], rfl⟩
    · refine ⟨List.take lim (st.interactions.filter fun i =>
        matchesFts (i.selected_text ++ [' '] ++ i.response) s), ?_⟩
      show Except.map (fun l => List.take lim l)
        (ftsQuery st.interactions
          (fun i => i.selected_text ++ [' '] ++ i.response) s) = Except.ok _
      rw [ftsQuery_ok _ _ s (sanitize_no_special q s hs)]
      rfl
  have hcon : ∀ (st : Store) (q : Str) (lim : ℕ),
      ∃ r, searchConcepts st q lim = .ok r := by
    intro st q lim
    unfold searchConcepts
    rcases hs : sanitizeFtsQuery q with _ | s
    · exact ⟨[], rfl⟩
    · refine ⟨List.take lim (st.concepts.filter fun c =>
        matchesFts c.name s), ?_⟩
      show Except.map (fun l => List.take lim l)
        (ftsQuery st.concepts (fun c => c.name) s) = Except.ok _
      rw [ftsQuery_ok _ _ s (sanitize_no_special q s hs)]
      rfl
  constructor
  · intro st q lim did
    refine ⟨hdoc st q lim, hint st q lim, hcon st q lim, ?_, ?_⟩
    · obtain ⟨r1, h1⟩ := hdoc st q lim
      obtain ⟨r2, h2⟩ := hint st q lim
      obtain ⟨r3, h3⟩ := hcon st q lim
      refine ⟨⟨r1, r2, r3⟩, ?_⟩
      unfold searchAll
      rw [h1, h2, h3]
    · unfold searchInteractionsInDocument
      rcases hs : sanitizeFtsQuery q with _ | s
      · exact ⟨[], rfl⟩
      · refine ⟨List.take lim ((st.interactions.filter fun i =>
          i.document_id = did).filter fun i =>
          matchesFts (i.selected_text ++ [' '] ++ i.response) s), ?_⟩
        show Except.map (fun l => List.take lim l)
          (ftsQuery (st.interactions.filter fun i => i.document_id = did)
            (fun i => i.selected_text ++ [' '] ++ i.response) s) =
          Except.ok _
        rw [ftsQuery_ok _ _ s (sanitize_no_special q s hs)]
        rfl
  · intro st q lim did hws
    have hs := sanitize_ws q hws
    refine ⟨?_, ?_, ?_, ?_, ?_⟩
    · unfold searchDocuments
      rw [hs]
    · unfold searchInteractions
      rw [hs]
    · unfold searchConcepts
      rw [hs]
    · unfold searchAll searchDocuments searchInteractions searchConcepts
      rw [hs]
    · unfold searchInteractionsInDocument
      rw [hs]

/-- Witness for claim C8: the whitespace query short-circuits every
entry point on the fresh store, and a query full of special characters
still produces a result. -/
theorem search_never_faults_and_short_circuits_witness :
    (trimStr "   ".toList = []) ∧
    (searchDocuments emptyStore "   ".toList 10 = .ok [] ∧
     searchInteractions emptyStore "   ".toList 10 = .ok [] ∧
     searchConcepts emptyStore "   ".toList 10 = .ok [] ∧
     searchAll emptyStore "   ".toList 10 = .ok ⟨[], [], []⟩ ∧
     searchInteractionsInDocument emptyStore "doc-1" "   ".toList 10 =
       .ok []) ∧
    (∃ r, searchDocuments emptyStore "te\"st*(query)".toList 10 =
      .ok r) := by
  have hws : trimStr "   ".toList = [] := by decide
  exact ⟨hws,
    search_never_faults_and_short_circuits.2 emptyStore "   ".toList 10
      "doc-1" hws,
    (search_never_faults_and_short_circuits.1 emptyStore
      "te\"st*(query)".toList 10 "doc-1").1⟩

/-! Concept-name normalization lemmas. -/

/-- Lowercasing never creates or destroys whitespace. -/
lemma wsChar_lowerChar (c : Char) : wsChar (sqlLowerChar c) = wsChar c := by
  unfold sqlLowerChar
  by_cases h : 65 ≤ c.toNat ∧ c.toNat ≤ 90
  · rw [if_pos h]
    obtain ⟨h1, h2⟩ := h
    have hc : c = Char.ofNat c.toNat := (Char.ofNat_toNat c).symm
    generalize hn : c.toNat = n at h1 h2 hc ⊢
    subst hc
    interval_cases n <;> decide
  · rw [if_neg h]

/-- Lowercasing commutes with trimming. -/
lemma lowerStr_trimStr (s : Str) :
    sqlLowerStr (trimStr s) = trimStr (sqlLowerStr s) := by
  have hf : (wsChar ∘ sqlLowerChar) = wsChar := funext wsChar_lowerChar
  unfold trimStr trimLeft sqlLowerStr
  rw [List.dropWhile_map, hf, ← List.map_reverse, List.dropWhile_map, hf,
    ← List.map_reverse]

/-- Equation: getOrCreateConcept on a hit returns the found row and the
unchanged store. -/
lemma gocCon_found (st : Store) (n : Str) (fid : String) (now : ℚ)
    (c0 : Concept)
    (hf : st.concepts.find?
      (fun c => sqlLowerStr c.name = trimStr (jsLowerStr n)) = some c0) :
    getOrCreateConcept n fid now st = (c0, st) := by
  simp only [getOrCreateConcept]
  rw [hf]

/-- Equation: getOrCreateConcept on a miss appends the trimmed name. -/
lemma gocCon_notfound (st : Store) (n : Str) (fid : String) (now : ℚ)
    (hf : st.concepts.find?
      (fun c => sqlLowerStr c.name = trimStr (jsLowerStr n)) = none) :
    getOrCreateConcept n fid now st = (⟨fid, trimStr n, now⟩,
      { st with concepts := st.concepts ++ [⟨fid, trimStr n, now⟩] }) := by
  simp only [getOrCreateConcept]
  rw [hf]

/-! Concepts-table frame lemmas. -/

lemma concepts_gocDoc (fn fp : String) (tp : Option ℚ) (fid : String)
    (now : ℚ) (st : Store) :
    ((getOrCreateDocument fn fp tp fid now st).2).concepts = st.concepts := by
  unfold getOrCreateDocument
  split <;> rfl

lemma concepts_linkCI (c i : String) (st : Store) :
    (linkConceptToInteraction c i st).concepts = st.concepts := by
  unfold linkConceptToInteraction
  split <;> rfl

lemma concepts_linkCD (c d : String) (st : Store) :
    (linkConceptToDocument c d st).concepts = st.concepts := by
  simp only [linkConceptToDocument]
  split <;> rfl

lemma concepts_createRC (i q a fid : String) (now : ℚ) (st : Store) :
    ((createReviewCard i q a fid now st).2).concepts = st.concepts := rfl

lemma concepts_updateRC (cid : String) (q now : ℚ) (st : Store) :
    ((updateReviewCard cid q now st).2).concepts = st.concepts := by
  unfold updateReviewCard
  rcases hfind : st.review_cards.find? (fun c => c.id = cid) with _ | found <;>
    rw [hfind]

lemma concepts_foldl_linkCI (i0 : String) (cs : List Concept) :
    ∀ st : Store,
      (cs.foldl (fun s c => linkConceptToInteraction c.id i0 s)
        st).concepts = st.concepts := by
  induction cs with
  | nil => intro st; rfl
  | cons c rest ih =>
    intro st
    rw [List.foldl_cons, ih, concepts_linkCI]

lemma concepts_foldl_linkCD (d0 : String) (cs : List Concept) :
    ∀ st : Store,
      (cs.foldl (fun s c => linkConceptToDocument c.id d0 s)
        st).concepts = st.concepts := by
  induction cs with
  | nil => intro st; rfl
  | cons c rest ih =>
    intro st
    rw [List.foldl_cons, ih, concepts_linkCD]

/-- On ASCII characters the two lowercasings agree. -/
lemma jsLowerChar_ascii (c : Char) (h : asciiChar c = true) :
    jsLowerChar c = sqlLowerChar c := by
  have hle : c.toNat ≤ 127 := by
    simpa [asciiChar] using h
  unfold jsLowerChar sqlLowerChar
  by_cases h1 : 65 ≤ c.toNat ∧ c.toNat ≤ 90
  · rw [if_pos h1, if_pos h1]
  · rw [if_neg h1, if_neg h1, if_neg]
    rintro ⟨hge, -⟩
    omega

/-- On ASCII strings the two lowercasings agree. -/
lemma jsLowerStr_ascii (s : Str) (h : s.all asciiChar = true) :
    jsLowerStr s = sqlLowerStr s := by
  unfold jsLowerStr sqlLowerStr
  apply List.map_congr_left
  intro c hc
  refine jsLowerChar_ascii c ?_
  rw [List.all_eq_true] at h
  exact h c hc

/-! Case-insensitive uniqueness of concept rows. -/

/-- Appending a row whose normalized name is new keeps uniqueness. -/
lemma conceptsUnique_snoc (l : List Concept)
    (hl : ∀ m : Str, ((l.filter fun x => sqlLowerStr x.name = m).length) ≤ 1)
    (c : Concept) (hc : ∀ x ∈ l, sqlLowerStr x.name ≠ sqlLowerStr c.name) :
    ∀ m : Str, (((l ++ [c]).filter fun x => sqlLowerStr x.name = m).length)
      ≤ 1 := by
  intro m
  rw [List.filter_append]
  by_cases hm : sqlLowerStr c.name = m
  · have h0 : l.filter (fun x => sqlLowerStr x.name = m) = [] := by
      rw [List.filter_eq_nil_iff]
      intro x hx
      simp only [decide_eq_true_eq]
      rw [← hm]
      exact hc x hx
    rw [h0]
    simp [hm]
  · have h1 : [c].filter (fun x => sqlLowerStr x.name = m) = [] := by
      simp [hm]
    rw [h1, List.append_nil]
    exact hl m

/-- On ASCII input, getOrCreateConcept keeps concept-name uniqueness. -/
lemma conceptsUnique_gocCon (n : Str) (fid : String) (now : ℚ) (st : Store)
    (hascii : n.all asciiChar = true) (h : conceptsUnique st) :
    conceptsUnique ((getOrCreateConcept n fid now st).2) := by
  rcases hf : st.concepts.find?
      (fun c => sqlLowerStr c.name = trimStr (jsLowerStr n)) with _ | c0
  · rw [gocCon_notfound st n fid now hf]
    intro m
    refine conceptsUnique_snoc st.concepts h _ ?_ m
    intro x hx
    have hnx := List.find?_eq_none.mp hf x hx
    simp only [decide_eq_true_eq] at hnx
    show sqlLowerStr x.name ≠ sqlLowerStr (trimStr n)
    rw [lowerStr_trimStr, ← jsLowerStr_ascii n hascii]
    exact hnx
  · rw [gocCon_found st n fid now c0 hf]
    exact h

/-- On ASCII inputs, the batch loop of saveConceptsForInteraction keeps
uniqueness. -/
lemma conceptsUnique_batch (gen : ℕ → String) (now : ℚ) :
    ∀ ns : List Str, (∀ n ∈ ns, n.all asciiChar = true) →
    ∀ (st : Store) (k : ℕ), conceptsUnique st →
      conceptsUnique ((getOrCreateConceptsBatch gen now ns st k).2.1) := by
  intro ns
  induction ns with
  | nil => intro _ st k h; exact h
  | cons n rest ih =>
    intro hascii st k h
    have hn : n.all asciiChar = true := hascii n (List.mem_cons_self n rest)
    have hrest : ∀ x ∈ rest, x.all asciiChar = true := fun x hx =>
      hascii x (List.mem_cons_of_mem n hx)
    simp only [getOrCreateConceptsBatch]
    rcases hf : st.concepts.find?
        (fun c => sqlLowerStr c.name = trimStr (jsLowerStr n)) with _ | c0
    · rw [hf]
      refine ih hrest _ _ ?_
      intro m
      refine conceptsUnique_snoc st.concepts h _ ?_ m
      intro x hx
      have hnx := List.find?_eq_none.mp hf x hx
      simp only [decide_eq_true_eq] at hnx
      show sqlLowerStr x.name ≠ sqlLowerStr (trimStr n)
      rw [lowerStr_trimStr, ← jsLowerStr_ascii n hn]
      exact hnx
    · rw [hf]
      exact ih hrest _ _ h

/-- Every repository call with ASCII concept-name inputs keeps
concept-name uniqueness. -/
lemma conceptsUnique_step (op : Op) (st : Store) (hop : opAsciiNames op)
    (h : conceptsUnique st) :
    conceptsUnique (op.step st) := by
  cases op with
  | getOrCreateDocument fn fp tp fid now =>
    intro m
    rw [Op.step, concepts_gocDoc]
    exact h m
  | getOrCreateConcept n fid now =>
    exact conceptsUnique_gocCon n fid now st hop h
  | linkConceptToInteraction c i =>
    intro m
    rw [Op.step, concepts_linkCI]
    exact h m
  | linkConceptToDocument c d =>
    intro m
    rw [Op.step, concepts_linkCD]
    exact h m
  | saveConceptsForInteraction ns i d gen now =>
    intro m
    rw [Op.step]
    unfold saveConceptsForInteraction
    rw [concepts_foldl_linkCD, concepts_foldl_linkCI]
    exact conceptsUnique_batch gen now ns hop st 0 h m
  | createReviewCard i q a fid now =>
    intro m
    rw [Op.step, concepts_createRC]
    exact h m
  | updateReviewCard cid q now =>
    intro m
    rw [Op.step, concepts_updateRC]
    exact h m

/-- Uniqueness holds along every call sequence with ASCII concept-name
inputs. -/
lemma conceptsUnique_runFrom (ops : List Op) :
    (∀ op ∈ ops, opAsciiNames op) →
    ∀ st : Store, conceptsUnique st → conceptsUnique (runFrom st ops) := by
  induction ops with
  | nil => intro _ st h; exact h
  | cons op rest ih =>
    intro hops st h
    exact ih (fun o ho => hops o (List.mem_cons_of_mem op ho)) _
      (conceptsUnique_step op st (hops op (List.mem_cons_self op rest)) h)

/-- Claim C5, counterexample: the names CAFÉ and cafÉ agree after
JavaScript lowercasing and trimming, yet consecutive getOrCreateConcept
calls return different concept ids and leave two concepts rows whose
names match the normalized form: toLowerCase lowercases É while SQLite
LOWER does not, so the SQL lookup misses the first row. -/
theorem getOrCreateConcept_dedup_counterexample :
    trimStr (jsLowerStr "CAFÉ".toList) = trimStr (jsLowerStr "cafÉ".toList) ∧
    ((getOrCreateConcept "CAFÉ".toList "c-1" 0 emptyStore).1).id ≠
      ((getOrCreateConcept "cafÉ".toList "c-2" 1
        (getOrCreateConcept "CAFÉ".toList "c-1" 0 emptyStore).2).1).id ∧
    (((getOrCreateConcept "cafÉ".toList "c-2" 1
        (getOrCreateConcept "CAFÉ".toList "c-1" 0
          emptyStore).2).2).concepts.filter
      (fun c => trimStr (jsLowerStr c.name) =
        trimStr (jsLowerStr "CAFÉ".toList))).length = 2 := by
  decide

/-- Claim C5 (amended to ASCII names, where JavaScript toLowerCase and
SQLite LOWER agree): for ASCII name strings that become equal after
lowercasing and trimming, consecutive getOrCreateConcept calls return
the same concept id, and along any call sequence whose concept-name
inputs are ASCII at most one concepts row matches a given normalized
name. -/
theorem getOrCreateConcept_ascii_dedup :
    (∀ (st : Store) (n1 n2 : Str) (fid1 fid2 : String) (t1 t2 : ℚ),
      n1.all asciiChar = true → n2.all asciiChar = true →
      trimStr (jsLowerStr n1) = trimStr (jsLowerStr n2) →
      ((getOrCreateConcept n1 fid1 t1 st).1).id =
        ((getOrCreateConcept n2 fid2 t2
          (getOrCreateConcept n1 fid1 t1 st).2).1).id) ∧
    (∀ ops : List Op, (∀ op ∈ ops, opAsciiNames op) →
      ∀ m : Str,
      (((runTrace ops).concepts.filter
        (fun c => sqlLowerStr c.name = m)).length) ≤ 1) := by
  constructor
  · intro st n1 n2 fid1 fid2 t1 t2 ha1 _ha2 heq
    rcases hf : st.concepts.find?
        (fun c => sqlLowerStr c.name = trimStr (jsLowerStr n1)) with _ | c0
    · rw [gocCon_notfound st n1 fid1 t1 hf]
      have hf2 : (st.concepts ++ [(⟨fid1, trimStr n1, t1⟩ : Concept)]).find?
          (fun c => sqlLowerStr c.name = trimStr (jsLowerStr n2)) =
          some ⟨fid1, trimStr n1, t1⟩ := by
        rw [← heq, List.find?_append, hf]
        have hpos : (fun c : Concept =>
            decide (sqlLowerStr c.name = trimStr (jsLowerStr n1)))
            ⟨fid1, trimStr n1, t1⟩ = true := by
          simp only [decide_eq_true_eq]
          show sqlLowerStr (trimStr n1) = trimStr (jsLowerStr n1)
          rw [jsLowerStr_ascii n1 ha1]
          exact lowerStr_trimStr n1
        show List.find? (fun c => decide (sqlLowerStr c.name =
          trimStr (jsLowerStr n1)))
          [(⟨fid1, trimStr n1, t1⟩ : Concept)] =
          some ⟨fid1, trimStr n1, t1⟩
        exact List.find?_cons_of_pos _ hpos
      rw [gocCon_found _ n2 fid2 t2 _ hf2]
    · rw [gocCon_found st n1 fid1 t1 c0 hf]
      have hf2 : st.concepts.find?
          (fun c => sqlLowerStr c.name = trimStr (jsLowerStr n2)) = some c0 := by
        rw [← heq]
        exact hf
      rw [gocCon_found st n2 fid2 t2 c0 hf2]
  · intro ops hops m
    refine conceptsUnique_runFrom ops hops emptyStore ?_ m
    intro m0
    simp [emptyStore]

/-- Witness for claim C5 (amended): ASCII Entropy variants resolve to
one id, and a one-call ASCII trace keeps at most one matching row. -/
theorem getOrCreateConcept_ascii_dedup_witness :
    (("Entropy".toList.all asciiChar = true) ∧
     ("  ENTROPY  ".toList.all asciiChar = true) ∧
     trimStr (jsLowerStr "Entropy".toList) =
       trimStr (jsLowerStr "  ENTROPY  ".toList) ∧
     ((getOrCreateConcept "Entropy".toList "c-1" 0 emptyStore).1).id =
       ((getOrCreateConcept "  ENTROPY  ".toList "c-2" 1
         (getOrCreateConcept "Entropy".toList "c-1" 0 emptyStore).2).1).id) ∧
    ((((runTrace
        [Op.getOrCreateConcept "Entropy".toList "c-1" 0]).concepts.filter
      (fun c => sqlLowerStr c.name = "entropy".toList)).length) ≤ 1) := by
  have ha1 : "Entropy".toList.all asciiChar = true := by decide
  have ha2 : "  ENTROPY  ".toList.all asciiChar = true := by decide
  have heq : trimStr (jsLowerStr "Entropy".toList) =
      trimStr (jsLowerStr "  ENTROPY  ".toList) := by decide
  have hops : ∀ op ∈ [Op.getOrCreateConcept "Entropy".toList "c-1" 0],
      opAsciiNames op := by
    intro op hop
    rw [List.mem_singleton] at hop
    subst hop
    show "Entropy".toList.all asciiChar = true
    decide
  exact ⟨⟨ha1, ha2, heq, getOrCreateConcept_ascii_dedup.1 emptyStore
      "Entropy".toList "  ENTROPY  ".toList "c-1" "c-2" 0 1 ha1 ha2 heq⟩,
    getOrCreateConcept_ascii_dedup.2
      [Op.getOrCreateConcept "Entropy".toList "c-1" 0] hops "entropy".toList⟩

/-! Occurrence-count accounting for linkConceptToDocument. -/

/-- The increment map of the upsert preserves the row key. -/
lemma incr_dcKey (d0 c0 : String) (r : DCLink) :
    dcKey (if r.document_id = d0 ∧ r.concept_id = c0 then
      { r with occurrence_count := r.occurrence_count + 1 } else r) =
      dcKey r := by
  split <;> rfl

/-- Key-based filters see through the increment map. -/
lemma filter_incr (l : List DCLink) (d0 c0 d c : String) :
    (l.map fun r => if r.document_id = d0 ∧ r.concept_id = c0 then
        { r with occurrence_count := r.occurrence_count + 1 } else r).filter
      (fun r => r.document_id = d ∧ r.concept_id = c) =
    (l.filter fun r => r.document_id = d ∧ r.concept_id = c).map
      fun r => if r.document_id = d0 ∧ r.concept_id = c0 then
        { r with occurrence_count := r.occurrence_count + 1 } else r := by
  rw [List.filter_map]
  congr 1
  apply List.filter_congr
  intro r _
  have hk := incr_dcKey d0 c0 r
  unfold dcKey at hk
  have h1 : (if r.document_id = d0 ∧ r.concept_id = c0 then
      { r with occurrence_count := r.occurrence_count + 1 } else
      r).document_id = r.document_id := congrArg Prod.fst hk
  have h2 : (if r.document_id = d0 ∧ r.concept_id = c0 then
      { r with occurrence_count := r.occurrence_count + 1 } else
      r).concept_id = r.concept_id := congrArg Prod.snd hk
  simp only [Function.comp, h1, h2]

/-- Under the key constraint, a key matches at most one row. -/
lemma countP_key_le_one (d c : String) :
    ∀ l : List DCLink, (l.map dcKey).Nodup →
      l.countP (fun r => r.document_id = d ∧ r.concept_id = c) ≤ 1 := by
  intro l
  induction l with
  | nil => intro _; simp
  | cons r t ih =>
    intro hnd
    rw [List.map_cons, List.nodup_cons] at hnd
    rw [List.countP_cons]
    by_cases hr : r.document_id = d ∧ r.concept_id = c
    · have ht : t.countP (fun r => r.document_id = d ∧ r.concept_id = c)
          = 0 := by
        rw [List.countP_eq_zero]
        intro x hx
        simp only [decide_eq_true_eq]
        intro hxk
        refine hnd.1 ?_
        have : dcKey x = dcKey r := by
          unfold dcKey
          rw [hxk.1, hxk.2, hr.1, hr.2]
        rw [← this]
        exact List.mem_map_of_mem _ hx
      rw [ht]
      simp [hr]
    · rw [if_neg (by simpa using hr)]
      have := ih hnd.2
      omega

/-- Effect of one linkConceptToDocument call on a stored count, under
the key constraint: the addressed pair gains one, others are unchanged. -/
lemma dcCount_linkCD (st : Store) (c0 d0 d c : String) (hinv : dcInv st) :
    dcCount (linkConceptToDocument c0 d0 st) d c =
      dcCount st d c + (if d0 = d ∧ c0 = c then 1 else 0) := by
  simp only [linkConceptToDocument]
  split
  case isTrue h0 =>
    unfold dcCount
    show ((((st.document_concepts ++ [(⟨d0, c0, 1⟩ : DCLink)]).filter
      (fun r => r.document_id = d ∧ r.concept_id = c)).map
      (fun r : DCLink => r.occurrence_count)).sum) = _
    rw [List.filter_append, List.map_append, List.sum_append]
    by_cases hdc : d0 = d ∧ c0 = c
    · have hone : ([(⟨d0, c0, 1⟩ : DCLink)].filter
          (fun r => r.document_id = d ∧ r.concept_id = c)) =
          [(⟨d0, c0, 1⟩ : DCLink)] := by
        simp [hdc.1, hdc.2]
      rw [hone, if_pos hdc]
      simp
    · have hzero : ([(⟨d0, c0, 1⟩ : DCLink)].filter
          (fun r => r.document_id = d ∧ r.concept_id = c)) = [] := by
        simp only [List.filter_eq_nil_iff]
        intro x hx
        rcases List.mem_singleton.mp hx with rfl
        simpa using hdc
      rw [hzero, if_neg hdc]
      rfl
  case isFalse h0 =>
    unfold dcCount
    show ((((st.document_concepts.map fun r : DCLink =>
      if r.document_id = d0 ∧ r.concept_id = c0 then
        { r with occurrence_count := r.occurrence_count + 1 } else r).filter
      (fun r => r.document_id = d ∧ r.concept_id = c)).map
      (fun r : DCLink => r.occurrence_count)).sum) = _
    rw [filter_incr]
    by_cases hdc : d0 = d ∧ c0 = c
    · obtain ⟨rfl, rfl⟩ := hdc
      have hcnt : st.document_concepts.countP
          (fun r => r.document_id = d0 ∧ r.concept_id = c0) = 1 := by
        have hle := countP_key_le_one d0 c0 st.document_concepts hinv
        omega
      have hall : ∀ r ∈ st.document_concepts.filter
          (fun r => r.document_id = d0 ∧ r.concept_id = c0),
          (if r.document_id = d0 ∧ r.concept_id = c0 then
            { r with occurrence_count := r.occurrence_count + 1 } else r) =
          { r with occurrence_count := r.occurrence_count + 1 } := by
        intro r hr
        have := (List.mem_filter.mp hr).2
        simp only [decide_eq_true_eq] at this
        rw [if_pos this]
      rw [List.map_congr_left hall]
      have hlen : (st.document_concepts.filter
          (fun r => r.document_id = d0 ∧ r.concept_id = c0)).length = 1 := by
        rw [← List.countP_eq_length_filter]
        exact hcnt
      rcases List.length_eq_one.mp hlen with ⟨row, hrow⟩
      rw [hrow]
      simp
    · have hall : ∀ r ∈ st.document_concepts.filter
          (fun r => r.document_id = d ∧ r.concept_id = c),
          (if r.document_id = d0 ∧ r.concept_id = c0 then
            { r with occurrence_count := r.occurrence_count + 1 } else r) =
          r := by
        intro r hr
        have hk := (List.mem_filter.mp hr).2
        simp only [decide_eq_true_eq] at hk
        rw [if_neg]
        intro hk0
        exact hdc ⟨by rw [← hk.1, hk0.1], by rw [← hk.2, hk0.2]⟩
      rw [List.map_congr_left hall, if_neg hdc]
      simp

/-- One linkConceptToDocument call keeps the key constraint. -/
lemma dcInv_linkCD (st : Store) (c0 d0 : String) (hinv : dcInv st) :
    dcInv (linkConceptToDocument c0 d0 st) := by
  simp only [linkConceptToDocument]
  split
  case isTrue h0 =>
    unfold dcInv
    show ((st.document_concepts ++ [(⟨d0, c0, 1⟩ : DCLink)]).map dcKey).Nodup
    rw [List.map_append]
    rw [List.nodup_append]
    refine ⟨hinv, List.nodup_singleton _, ?_⟩
    intro k hk hk2
    rcases List.mem_singleton.mp hk2 with rfl
    rcases List.mem_map.mp hk with ⟨r, hr, hkey⟩
    have := List.countP_eq_zero.mp h0 r hr
    simp only [decide_eq_true_eq] at this
    refine this ?_
    unfold dcKey at hkey
    exact ⟨congrArg Prod.fst hkey, congrArg Prod.snd hkey⟩
  case isFalse h0 =>
    unfold dcInv
    show (((st.document_concepts.map fun r : DCLink =>
      if r.document_id = d0 ∧ r.concept_id = c0 then
        { r with occurrence_count := r.occurrence_count + 1 } else r).map
      dcKey)).Nodup
    rw [List.map_map]
    have : (dcKey ∘ fun r : DCLink =>
        if r.document_id = d0 ∧ r.concept_id = c0 then
          { r with occurrence_count := r.occurrence_count + 1 } else r) =
        dcKey := by
      funext r
      exact incr_dcKey d0 c0 r
    rw [this]
    exact hinv

/-- One linkConceptToDocument call never lowers any stored count. -/
lemma dcCount_linkCD_mono (st : Store) (c0 d0 d c : String) :
    dcCount st d c ≤ dcCount (linkConceptToDocument c0 d0 st) d c := by
  simp only [linkConceptToDocument]
  split
  case isTrue h0 =>
    unfold dcCount
    show _ ≤ ((((st.document_concepts ++ [(⟨d0, c0, 1⟩ : DCLink)]).filter
      (fun r => r.document_id = d ∧ r.concept_id = c)).map
      (fun r : DCLink => r.occurrence_count)).sum)
    rw [List.filter_append, List.map_append, List.sum_append]
    omega
  case isFalse h0 =>
    unfold dcCount
    show _ ≤ ((((st.document_concepts.map fun r : DCLink =>
      if r.document_id = d0 ∧ r.concept_id = c0 then
        { r with occurrence_count := r.occurrence_count + 1 } else r).filter
      (fun r => r.document_id = d ∧ r.concept_id = c)).map
      (fun r : DCLink => r.occurrence_count)).sum)
    rw [filter_incr, List.map_map]
    apply List.sum_le_sum
    intro r _
    simp only [Function.comp]
    split
    · simp
    · exact le_rfl

/-! document_concepts frame lemmas and count transport. -/

/-- The stored count only reads document_concepts. -/
lemma dcCount_congr (st1 st2 : Store) (d c : String)
    (h : st1.document_concepts = st2.document_concepts) :
    dcCount st1 d c = dcCount st2 d c := by
  unfold dcCount
  rw [h]

/-- The key constraint only reads document_concepts. -/
lemma dcInv_congr (st1 st2 : Store)
    (h : st1.document_concepts = st2.document_concepts) (hinv : dcInv st2) :
    dcInv st1 := by
  unfold dcInv
  rw [h]
  exact hinv

lemma dc_gocDoc (fn fp : String) (tp : Option ℚ) (fid : String)
    (now : ℚ) (st : Store) :
    ((getOrCreateDocument fn fp tp fid now st).2).document_concepts =
      st.document_concepts := by
  unfold getOrCreateDocument
  split <;> rfl

lemma dc_gocCon (n : Str) (fid : String) (now : ℚ) (st : Store) :
    ((getOrCreateConcept n fid now st).2).document_concepts =
      st.document_concepts := by
  simp only [getOrCreateConcept]
  split <;> rfl

lemma dc_linkCI (c i : String) (st : Store) :
    (linkConceptToInteraction c i st).document_concepts =
      st.document_concepts := by
  unfold linkConceptToInteraction
  split <;> rfl

lemma dc_createRC (i q a fid : String) (now : ℚ) (st : Store) :
    ((createReviewCard i q a fid now st).2).document_concepts =
      st.document_concepts := rfl

lemma dc_updateRC (cid : String) (q now : ℚ) (st : Store) :
    ((updateReviewCard cid q now st).2).document_concepts =
      st.document_concepts := by
  unfold updateReviewCard
  rcases hfind : st.review_cards.find? (fun c => c.id = cid) with _ | found <;>
    rw [hfind]

lemma dc_batch (gen : ℕ → String) (now : ℚ) (ns : List Str) :
    ∀ (st : Store) (k : ℕ),
      ((getOrCreateConceptsBatch gen now ns st k).2.1).document_concepts =
        st.document_concepts := by
  induction ns with
  | nil => intro st k; rfl
  | cons n rest ih =>
    intro st k
    simp only [getOrCreateConceptsBatch]
    rcases hf : st.concepts.find?
        (fun c => sqlLowerStr c.name = trimStr (jsLowerStr n)) with _ | c0 <;>
      rw [hf]
    · exact ih _ _
    · exact ih _ _

lemma dc_foldl_linkCI (i0 : String) (cs : List Concept) :
    ∀ st : Store,
      (cs.foldl (fun s c => linkConceptToInteraction c.id i0 s)
        st).document_concepts = st.document_concepts := by
  induction cs with
  | nil => intro st; rfl
  | cons c rest ih =>
    intro st
    rw [List.foldl_cons, ih, dc_linkCI]

/-- Accounting for the document-link loop of saveConceptsForInteraction:
each processed concept adds one to its own pair on the loop document. -/
lemma dcCount_foldl_linkCD (d0 d c : String) (cs : List Concept) :
    ∀ st : Store, dcInv st →
      (dcCount (cs.foldl (fun s cc => linkConceptToDocument cc.id d0 s) st)
          d c =
        dcCount st d c +
          (if d0 = d then cs.countP (fun cc => cc.id = c) else 0)) ∧
      dcInv (cs.foldl (fun s cc => linkConceptToDocument cc.id d0 s) st) := by
  induction cs with
  | nil =>
    intro st h
    refine ⟨?_, h⟩
    simp
  | cons cc rest ih =>
    intro st h
    rw [List.foldl_cons]
    obtain ⟨ihc, ihinv⟩ :=
      ih (linkConceptToDocument cc.id d0 st) (dcInv_linkCD st cc.id d0 h)
    refine ⟨?_, ihinv⟩
    rw [ihc, dcCount_linkCD st cc.id d0 d c h, List.countP_cons]
    by_cases h1 : d0 = d
    · by_cases h2 : cc.id = c
      · simp [h1, h2]
        omega
      · simp only [h1, true_and]
        simp [h2]
    · simp [h1]

/-- The document-link loop never lowers a stored count. -/
lemma dcCount_foldl_linkCD_mono (d0 d c : String) (cs : List Concept) :
    ∀ st : Store,
      dcCount st d c ≤
        dcCount (cs.foldl (fun s cc => linkConceptToDocument cc.id d0 s) st)
          d c := by
  induction cs with
  | nil => intro st; exact le_rfl
  | cons cc rest ih =>
    intro st
    rw [List.foldl_cons]
    exact le_trans (dcCount_linkCD_mono st cc.id d0 d c)
      (ih (linkConceptToDocument cc.id d0 st))

/-- Effect of one repository call on a stored count: it grows by exactly
the number of link events the call performs for that pair, and the key
constraint is preserved. -/
lemma dcCount_step (op : Op) (st : Store) (d c : String) (hinv : dcInv st) :
    dcCount (op.step st) d c = dcCount st d c + opLinkEvents op st d c ∧
      dcInv (op.step st) := by
  cases op with
  | getOrCreateDocument fn fp tp fid now =>
    have hdc := dc_gocDoc fn fp tp fid now st
    refine ⟨?_, dcInv_congr _ st hdc hinv⟩
    show dcCount (getOrCreateDocument fn fp tp fid now st).2 d c = dcCount st d c + 0
    rw [dcCount_congr _ st d c hdc]
    omega
  | getOrCreateConcept n fid now =>
    have hdc := dc_gocCon n fid now st
    refine ⟨?_, dcInv_congr _ st hdc hinv⟩
    show dcCount (getOrCreateConcept n fid now st).2 d c = dcCount st d c + 0
    rw [dcCount_congr _ st d c hdc]
    omega
  | linkConceptToInteraction c0 i0 =>
    have hdc := dc_linkCI c0 i0 st
    refine ⟨?_, dcInv_congr _ st hdc hinv⟩
    show dcCount (linkConceptToInteraction c0 i0 st) d c = dcCount st d c + 0
    rw [dcCount_congr _ st d c hdc]
    omega
  | linkConceptToDocument c0 d0 =>
    exact ⟨dcCount_linkCD st c0 d0 d c hinv, dcInv_linkCD st c0 d0 hinv⟩
  | saveConceptsForInteraction ns i0 d0 gen now =>
    show dcCount ((saveConceptsForInteraction ns i0 d0 gen now st).2) d c
        = _ ∧ dcInv ((saveConceptsForInteraction ns i0 d0 gen now st).2)
    unfold saveConceptsForInteraction
    have hdc2 : ((getOrCreateConceptsBatch gen now ns st 0).1.foldl
        (fun s c => linkConceptToInteraction c.id i0 s)
        (getOrCreateConceptsBatch gen now ns st 0).2.1).document_concepts =
        st.document_concepts := by
      rw [dc_foldl_linkCI, dc_batch]
    obtain ⟨hcnt, hinv2⟩ := dcCount_foldl_linkCD d0 d c
      (getOrCreateConceptsBatch gen now ns st 0).1
      ((getOrCreateConceptsBatch gen now ns st 0).1.foldl
        (fun s c => linkConceptToInteraction c.id i0 s)
        (getOrCreateConceptsBatch gen now ns st 0).2.1)
      (dcInv_congr _ st hdc2 hinv)
    refine ⟨?_, hinv2⟩
    rw [hcnt, dcCount_congr _ st d c hdc2]
    rfl
  | createReviewCard i0 q a fid now =>
    have hdc := dc_createRC i0 q a fid now st
    refine ⟨?_, dcInv_congr _ st hdc hinv⟩
    show dcCount (createReviewCard i0 q a fid now st).2 d c = dcCount st d c + 0
    rw [dcCount_congr _ st d c hdc]
    omega
  | updateReviewCard cid q now =>
    have hdc := dc_updateRC cid q now st
    refine ⟨?_, dcInv_congr _ st hdc hinv⟩
    show dcCount (updateReviewCard cid q now st).2 d c = dcCount st d c + 0
    rw [dcCount_congr _ st d c hdc]
    omega

/-- A call sequence adds exactly its link-event total to a stored
count. -/
lemma dcCount_runFrom (ops : List Op) (d c : String) :
    ∀ st : Store, dcInv st →
      dcCount (runFrom st ops) d c =
        dcCount st d c + traceEvents ops st d c ∧
      dcInv (runFrom st ops) := by
  induction ops with
  | nil =>
    intro st h
    refine ⟨?_, h⟩
    show dcCount st d c = dcCount st d c + 0
    omega
  | cons op rest ih =>
    intro st h
    obtain ⟨hstep, hinv2⟩ := dcCount_step op st d c h
    obtain ⟨hrest, hinv3⟩ := ih (op.step st) hinv2
    refine ⟨?_, hinv3⟩
    show dcCount (runFrom (op.step st) rest) d c = dcCount st d c +
      (opLinkEvents op st d c + traceEvents rest (op.step st) d c)
    rw [hrest, hstep]
    omega

/-- Claim C6: starting from the fresh store, the occurrence_count of
every (document, concept) pair equals the total number of link events
performed for that pair, via linkConceptToDocument calls or entries of
saveConceptsForInteraction; and no repository call ever decreases a
stored occurrence_count. -/
theorem occurrence_count_accumulates :
    (∀ (ops : List Op) (d c : String),
      dcCount (runTrace ops) d c = traceEvents ops emptyStore d c) ∧
    (∀ (op : Op) (st : Store) (d c : String),
      dcCount st d c ≤ dcCount (op.step st) d c) := by
  constructor
  · intro ops d c
    have h0 : dcInv emptyStore := by
      show (List.map dcKey []).Nodup
      simp
    have h := (dcCount_runFrom ops d c emptyStore h0).1
    show dcCount (runFrom emptyStore ops) d c = traceEvents ops emptyStore d c
    rw [h]
    show dcCount emptyStore d c + _ = _
    have hz : dcCount emptyStore d c = 0 := rfl
    omega
  · intro op st d c
    cases op with
    | getOrCreateDocument fn fp tp fid now =>
      exact le_of_eq (dcCount_congr st _ d c (dc_gocDoc fn fp tp fid now
        st).symm)
    | getOrCreateConcept n fid now =>
      exact le_of_eq (dcCount_congr st _ d c (dc_gocCon n fid now st).symm)
    | linkConceptToInteraction c0 i0 =>
      exact le_of_eq (dcCount_congr st _ d c (dc_linkCI c0 i0 st).symm)
    | linkConceptToDocument c0 d0 =>
      exact dcCount_linkCD_mono st c0 d0 d c
    | saveConceptsForInteraction ns i0 d0 gen now =>
      show dcCount st d c ≤
        dcCount ((saveConceptsForInteraction ns i0 d0 gen now st).2) d c
      unfold saveConceptsForInteraction
      have hdc2 : ((getOrCreateConceptsBatch gen now ns st 0).1.foldl
          (fun s c => linkConceptToInteraction c.id i0 s)
          (getOrCreateConceptsBatch gen now ns st 0).2.1).document_concepts =
          st.document_concepts := by
        rw [dc_foldl_linkCI, dc_batch]
      calc dcCount st d c
          = dcCount ((getOrCreateConceptsBatch gen now ns st 0).1.foldl
              (fun s c => linkConceptToInteraction c.id i0 s)
              (getOrCreateConceptsBatch gen now ns st 0).2.1) d c :=
            (dcCount_congr _ st d c hdc2).symm
        _ ≤ _ := dcCount_foldl_linkCD_mono d0 d c _ _
    | createReviewCard i0 q a fid now =>
      exact le_of_eq (dcCount_congr st _ d c (dc_createRC i0 q a fid now
        st).symm)
    | updateReviewCard cid q now =>
      exact le_of_eq (dcCount_congr st _ d c (dc_updateRC cid q now st).symm)

/-! interaction_concepts: primary-key constraint along traces. -/

lemma ic_gocDoc (fn fp : String) (tp : Option ℚ) (fid : String)
    (now : ℚ) (st : Store) :
    ((getOrCreateDocument fn fp tp fid now st).2).interaction_concepts =
      st.interaction_concepts := by
  unfold getOrCreateDocument
  split <;> rfl

lemma ic_gocCon (n : Str) (fid : String) (now : ℚ) (st : Store) :
    ((getOrCreateConcept n fid now st).2).interaction_concepts =
      st.interaction_concepts := by
  simp only [getOrCreateConcept]
  split <;> rfl

lemma ic_linkCD (c d : String) (st : Store) :
    (linkConceptToDocument c d st).interaction_concepts =
      st.interaction_concepts := by
  simp only [linkConceptToDocument]
  split <;> rfl

lemma ic_createRC (i q a fid : String) (now : ℚ) (st : Store) :
    ((createReviewCard i q a fid now st).2).interaction_concepts =
      st.interaction_concepts := rfl

lemma ic_updateRC (cid : String) (q now : ℚ) (st : Store) :
    ((updateReviewCard cid q now st).2).interaction_concepts =
      st.interaction_concepts := by
  unfold updateReviewCard
  rcases hfind : st.review_cards.find? (fun c => c.id = cid) with _ | found <;>
    rw [hfind]

lemma ic_batch (gen : ℕ → String) (now : ℚ) (ns : List Str) :
    ∀ (st : Store) (k : ℕ),
      ((getOrCreateConceptsBatch gen now ns st k).2.1).interaction_concepts =
        st.interaction_concepts := by
  induction ns with
  | nil => intro st k; rfl
  | cons n rest ih =>
    intro st k
    simp only [getOrCreateConceptsBatch]
    rcases hf : st.concepts.find?
        (fun c => sqlLowerStr c.name = trimStr (jsLowerStr n)) with _ | c0 <;>
      rw [hf]
    · exact ih _ _
    · exact ih _ _

lemma ic_foldl_linkCD (d0 : String) (cs : List Concept) :
    ∀ st : Store,
      (cs.foldl (fun s c => linkConceptToDocument c.id d0 s)
        st).interaction_concepts = st.interaction_concepts := by
  induction cs with
  | nil => intro st; rfl
  | cons c rest ih =>
    intro st
    rw [List.foldl_cons, ih, ic_linkCD]

/-- The insert-or-ignore link keeps rows duplicate-free. -/
lemma icNodup_linkCI (c i : String) (st : Store)
    (h : st.interaction_concepts.Nodup) :
    (linkConceptToInteraction c i st).interaction_concepts.Nodup := by
  unfold linkConceptToInteraction
  split
  · exact h
  case isFalse hmem =>
    show (st.interaction_concepts ++ [(i, c)]).Nodup
    rw [List.nodup_append]
    exact ⟨h, List.nodup_singleton _, by
      intro x hx hx2
      rcases List.mem_singleton.mp hx2 with rfl
      exact hmem hx⟩

lemma icNodup_foldl_linkCI (i0 : String) (cs : List Concept) :
    ∀ st : Store, st.interaction_concepts.Nodup →
      (cs.foldl (fun s c => linkConceptToInteraction c.id i0 s)
        st).interaction_concepts.Nodup := by
  induction cs with
  | nil => intro st h; exact h
  | cons c rest ih =>
    intro st h
    rw [List.foldl_cons]
    exact ih _ (icNodup_linkCI c.id i0 st h)

/-- Every repository call keeps interaction links duplicate-free. -/
lemma icNodup_step (op : Op) (st : Store)
    (h : st.interaction_concepts.Nodup) :
    (op.step st).interaction_concepts.Nodup := by
  cases op with
  | getOrCreateDocument fn fp tp fid now =>
    rw [Op.step, ic_gocDoc]
    exact h
  | getOrCreateConcept n fid now =>
    rw [Op.step, ic_gocCon]
    exact h
  | linkConceptToInteraction c i =>
    exact icNodup_linkCI c i st h
  | linkConceptToDocument c d =>
    rw [Op.step, ic_linkCD]
    exact h
  | saveConceptsForInteraction ns i d gen now =>
    rw [Op.step]
    unfold saveConceptsForInteraction
    rw [ic_foldl_linkCD]
    refine icNodup_foldl_linkCI i _ _ ?_
    rw [ic_batch]
    exact h
  | createReviewCard i q a fid now =>
    rw [Op.step, ic_createRC]
    exact h
  | updateReviewCard cid q now =>
    rw [Op.step, ic_updateRC]
    exact h

/-- The primary-key constraint holds along every call sequence. -/
lemma icNodup_runFrom (ops : List Op) :
    ∀ st : Store, st.interaction_concepts.Nodup →
      (runFrom st ops).interaction_concepts.Nodup := by
  induction ops with
  | nil => intro st h; exact h
  | cons op rest ih =>
    intro st h
    exact ih _ (icNodup_step op st h)

/-! The co-occurrence self-join, counted. -/

/-- Membership in the self-join key list. -/
lemma mem_coPairs (st : Store) (a b : String) :
    (a, b) ∈ coPairs st ↔ a < b ∧ ∃ i : String,
      (i, a) ∈ st.interaction_concepts ∧
      (i, b) ∈ st.interaction_concepts := by
  unfold coPairs
  rw [List.mem_flatMap]
  constructor
  · rintro ⟨r1, hr1, hmem⟩
    rcases List.mem_filterMap.mp hmem with ⟨r2, hr2, hf⟩
    split at hf
    case isTrue hcond =>
      rcases Option.some.injEq .. ▸ hf with heq
      have ha : r1.2 = a := congrArg Prod.fst heq
      have hb : r2.2 = b := congrArg Prod.snd heq
      refine ⟨by rw [← ha, ← hb]; exact hcond.2, r1.1, ?_, ?_⟩
      · rw [← ha]
        exact hr1
      · rw [hcond.1, ← hb]
        exact hr2
    case isFalse => cases hf
  · rintro ⟨hab, i, hia, hib⟩
    refine ⟨(i, a), hia, ?_⟩
    rw [List.mem_filterMap]
    refine ⟨(i, b), hib, ?_⟩
    rw [if_pos ⟨rfl, hab⟩]

/-- Every self-join key is strictly ordered. -/
lemma coPairs_lt (st : Store) : ∀ k ∈ coPairs st, k.1 < k.2 := by
  intro k hk
  unfold coPairs at hk
  rcases List.mem_flatMap.mp hk with ⟨r1, _, hmem⟩
  rcases List.mem_filterMap.mp hmem with ⟨r2, _, hf⟩
  split at hf
  case isTrue hcond =>
    rcases Option.some.injEq .. ▸ hf with heq
    rw [← heq]
    exact hcond.2
  case isFalse => cases hf

/-- Counting in a filterMap image counts matching preimages. -/
lemma count_filterMap {α β : Type} [DecidableEq β] (g : α → Option β)
    (b0 : β) :
    ∀ l : List α, (l.filterMap g).count b0 =
      l.countP (fun x => g x = some b0) := by
  intro l
  induction l with
  | nil => rfl
  | cons x t ih =>
    rw [List.filterMap_cons, List.countP_cons]
    rcases hg : g x with _ | y
    · rw [ih]
      simp [hg]
    · rw [List.count_cons, ih]
      simp [hg]

/-- In a duplicate-free list, an element predicate counts membership. -/
lemma countP_eq_mem_of_nodup {α : Type} [DecidableEq α] (x : α) :
    ∀ l : List α, l.Nodup →
      l.countP (fun y => y = x) = if x ∈ l then 1 else 0 := by
  intro l
  induction l with
  | nil => intro _; simp
  | cons y t ih =>
    intro hnd
    rw [List.nodup_cons] at hnd
    rw [List.countP_cons, ih hnd.2]
    by_cases hyx : y = x
    · subst hyx
      rw [if_neg hnd.1, if_pos (List.mem_cons_self y t)]
      simp
    · have hxy : ¬ x = y := fun h => hyx h.symm
      simp [List.mem_cons, hxy, hyx]

/-- A missing element is never counted. -/
lemma countP_eq_zero_of_not_mem {α : Type} [DecidableEq α] (x : α)
    (l : List α) (h : x ∉ l) : l.countP (fun y => y = x) = 0 := by
  rw [List.countP_eq_zero]
  intro y hy
  simp only [decide_eq_true_eq]
  rintro rfl
  exact h hy

/-- In a duplicate-free list, a present element is counted once. -/
lemma countP_eq_one_of_nodup_mem {α : Type} [DecidableEq α] (x : α) :
    ∀ l : List α, l.Nodup → x ∈ l →
      l.countP (fun y => y = x) = 1 := by
  intro l
  induction l with
  | nil => intro _ hx; cases hx
  | cons y t ih =>
    intro hnd hx
    rw [List.nodup_cons] at hnd
    rw [List.countP_cons]
    rcases List.mem_cons.mp hx with rfl | hxt
    · rw [countP_eq_zero_of_not_mem x t hnd.1]
      simp
    · rw [ih hnd.2 hxt]
      have hyx : ¬ y = x := fun h => hnd.1 (h ▸ hxt)
      simp [hyx]

/-- Counting a key equals counting with propositional equality. -/
lemma count_eq_countP_pair (x : String × String)
    (l : List (String × String)) :
    l.count x = l.countP (fun y => y = x) := by
  show l.countP (fun y => y == x) = _
  apply List.countP_congr
  intro y _
  by_cases h : y = x <;> simp [h]

/-- Counting in a filterMap image counts matching preimages. -/
lemma countP_filterMap_eq {α β : Type} [DecidableEq β] (g : α → Option β)
    (b0 : β) :
    ∀ l : List α, (l.filterMap g).countP (fun y => y = b0) =
      l.countP (fun x => g x = some b0) := by
  intro l
  induction l with
  | nil => rfl
  | cons x t ih =>
    rw [List.filterMap_cons, List.countP_cons]
    rcases hg : g x with _ | y
    · rw [ih]
      simp [hg]
    · rw [List.countP_cons, ih]
      simp [hg]

/-- The group size the self-join assigns to an ordered key equals the
row-wise co-occurrence count. -/
lemma count_coPairs (st : Store) (a b : String)
    (hnd : st.interaction_concepts.Nodup) (hab : a < b) :
    (coPairs st).count (a, b) = rowNumBoth st a b := by
  rw [count_eq_countP_pair]
  have aux : ∀ l : List (String × String),
      (l.flatMap (fun r1 => st.interaction_concepts.filterMap (fun r2 =>
        if r1.1 = r2.1 ∧ r1.2 < r2.2 then some (r1.2, r2.2) else
          none))).countP (fun y => y = (a, b))
        = l.countP (fun r1 => r1.2 = a ∧
            (r1.1, b) ∈ st.interaction_concepts) := by
    intro l
    induction l with
    | nil => rfl
    | cons r1 t ih =>
      rw [List.flatMap_cons, List.countP_append, ih, List.countP_cons]
      have hblock : (st.interaction_concepts.filterMap (fun r2 =>
          if r1.1 = r2.1 ∧ r1.2 < r2.2 then some (r1.2, r2.2) else
            none)).countP (fun y => y = (a, b))
          = if r1.2 = a ∧ (r1.1, b) ∈ st.interaction_concepts then 1
            else 0 := by
        rw [countP_filterMap_eq]
        by_cases ha : r1.2 = a
        · have hcongr : ∀ r2 ∈ st.interaction_concepts,
              (decide ((if r1.1 = r2.1 ∧ r1.2 < r2.2 then
                some (r1.2, r2.2) else none) = some (a, b)))
                = decide (r2 = (r1.1, b)) := by
            intro r2 _
            apply decide_eq_decide.mpr
            by_cases hc : r1.1 = r2.1 ∧ r1.2 < r2.2
            · rw [if_pos hc]
              constructor
              · intro hsome
                have hp := Option.some.inj hsome
                have hb2 : r2.2 = b := congrArg Prod.snd hp
                show r2 = (r1.1, b)
                have hr2eta : r2 = (r2.1, r2.2) := rfl
                rw [hr2eta, ← hc.1, hb2]
              · intro hr2
                have hb2 : r2.2 = b := congrArg Prod.snd hr2
                rw [ha, hb2]
            · rw [if_neg hc]
              constructor
              · intro hsome
                cases hsome
              · intro hr2
                exfalso
                refine hc ⟨(congrArg Prod.fst hr2).symm, ?_⟩
                rw [ha, congrArg Prod.snd hr2]
                exact hab
          rw [List.countP_congr (fun x hx => by rw [hcongr x hx])]
          by_cases hm : (r1.1, b) ∈ st.interaction_concepts
          · rw [countP_eq_one_of_nodup_mem _ _ hnd hm, if_pos ⟨ha, hm⟩]
          · rw [countP_eq_zero_of_not_mem _ _ hm,
              if_neg (fun hcon => hm hcon.2)]
        · have h0 : st.interaction_concepts.countP (fun r2 =>
              (if r1.1 = r2.1 ∧ r1.2 < r2.2 then some (r1.2, r2.2) else
                none) = some (a, b)) = 0 := by
            rw [List.countP_eq_zero]
            intro r2 _
            simp only [decide_eq_true_eq]
            intro hsome
            split at hsome
            · exact ha (congrArg Prod.fst (Option.some.inj hsome))
            · cases hsome
          rw [h0, if_neg (by simp [ha])]
      rw [hblock]
      by_cases hcase : r1.2 = a ∧ (r1.1, b) ∈ st.interaction_concepts
      · simp only [hcase, if_pos]
        simp [hcase]
        omega
      · simp [hcase]
  show (st.interaction_concepts.flatMap _).countP _ = _
  rw [aux st.interaction_concepts]
  unfold rowNumBoth
  rw [List.countP_filter]
  apply List.countP_congr
  intro r _
  by_cases h1 : r.2 = a
  · by_cases h2 : (r.1, b) ∈ st.interaction_concepts <;> simp [h1, h2]
  · simp [h1]

/-- The co-occurrence filter is symmetric in the two concepts. -/
lemma idsBoth_comm (st : Store) (a b : String) :
    idsBoth st a b = idsBoth st b a := by
  unfold idsBoth
  apply List.filter_congr
  intro i _
  exact decide_eq_decide.mpr and_comm

/-- Under the primary-key constraint, the row-wise count equals the
number of distinct interactions linked to both concepts. -/
lemma rowNumBoth_eq_idsBoth (st : Store) (a b : String)
    (hnd : st.interaction_concepts.Nodup) :
    rowNumBoth st a b = (idsBoth st a b).length := by
  classical
  have h1 : rowNumBoth st a b = (st.interaction_concepts.filter
      (fun r => r.2 = a ∧ (r.1, b) ∈ st.interaction_concepts)).length := by
    unfold rowNumBoth
    rw [← List.countP_eq_length_filter, List.countP_filter]
    apply List.countP_congr
    intro r _
    by_cases hx : r.2 = a
    · by_cases hy : (r.1, b) ∈ st.interaction_concepts <;> simp [hx, hy]
    · simp [hx]
  have hSnd : (st.interaction_concepts.filter
      (fun r => r.2 = a ∧ (r.1, b) ∈ st.interaction_concepts)).Nodup :=
    hnd.filter _
  have hInd : (idsBoth st a b).Nodup :=
    ((st.interaction_concepts.map Prod.fst).nodup_dedup).filter _
  rw [h1, ← List.toFinset_card_of_nodup hSnd,
    ← List.toFinset_card_of_nodup hInd]
  have hS : (st.interaction_concepts.filter
      (fun r => r.2 = a ∧ (r.1, b) ∈ st.interaction_concepts)).toFinset
      = st.interaction_concepts.toFinset.filter
          (fun r => r.2 = a ∧ (r.1, b) ∈ st.interaction_concepts) := by
    ext r
    simp [List.mem_filter]
  have hT : (idsBoth st a b).toFinset
      = (st.interaction_concepts.toFinset.image Prod.fst).filter
          (fun i => (i, a) ∈ st.interaction_concepts ∧
            (i, b) ∈ st.interaction_concepts) := by
    unfold idsBoth
    ext i
    simp [List.mem_filter, List.mem_dedup, List.mem_map]
  rw [hS, hT]
  have himg : (st.interaction_concepts.toFinset.filter
      (fun r => r.2 = a ∧ (r.1, b) ∈ st.interaction_concepts)).image
        Prod.fst
      = (st.interaction_concepts.toFinset.image Prod.fst).filter
          (fun i => (i, a) ∈ st.interaction_concepts ∧
            (i, b) ∈ st.interaction_concepts) := by
    ext i
    simp only [Finset.mem_image, Finset.mem_filter, List.mem_toFinset]
    constructor
    · rintro ⟨r, ⟨hr, ha2, hb2⟩, hfst⟩
      have hra : r = (i, a) := by
        have hre : r = (r.1, r.2) := rfl
        rw [hre, hfst, ha2]
      refine ⟨⟨r, hr, hfst⟩, ?_, ?_⟩
      · rw [← hra]
        exact hr
      · rw [← hfst]
        exact hb2
    · rintro ⟨⟨r, hr, hfst⟩, hia, hib⟩
      exact ⟨(i, a), ⟨hia, rfl, hib⟩, rfl⟩
  have hinj : Set.InjOn Prod.fst
      ((st.interaction_concepts.toFinset.filter
        (fun r => r.2 = a ∧ (r.1, b) ∈ st.interaction_concepts) :
        Finset (String × String)) : Set (String × String)) := by
    intro r hr r2 hr2 hf
    simp only [Finset.coe_filter, Set.mem_setOf_eq, List.mem_toFinset]
      at hr hr2
    have hre : r = (r.1, r.2) := rfl
    rw [hre, hf, hr.2.1, show r2 = (r2.1, r2.2) from rfl, hr2.2.1]
  rw [← himg, Finset.card_image_of_injOn hinj]

/-- Core edge characterization for an ordered pair: the HAVING filter
keeps every group, exactly one edge appears per co-occurring ordered
key, and its weight is the group size. -/
lemma graph_edges_core (st : Store) (a b : String) (hab : a < b) :
    (((getConceptGraph st).links.filter
      (fun e => (e.source = a ∧ e.target = b) ∨
                (e.source = b ∧ e.target = a))).length =
      (if (a, b) ∈ coPairs st then 1 else 0)) ∧
    ∀ e ∈ (getConceptGraph st).links.filter
      (fun e => (e.source = a ∧ e.target = b) ∨
                (e.source = b ∧ e.target = a)),
      e.weight = (coPairs st).count (a, b) := by
  have hlinks : (getConceptGraph st).links =
      ((coPairs st).dedup.map
        (fun k => ConceptLink.mk k.1 k.2 ((coPairs st).count k))) := by
    show ((coPairs st).dedup.map
      (fun k => ConceptLink.mk k.1 k.2 ((coPairs st).count k))).filter
      (fun e => 0 < e.weight) = _
    apply List.filter_eq_self.mpr
    intro e he
    rcases List.mem_map.mp he with ⟨k, hk, rfl⟩
    simp only [decide_eq_true_eq]
    show 0 < (coPairs st).count k
    exact List.count_pos_iff.mpr (List.mem_dedup.mp hk)
  have hcongr : ∀ k ∈ (coPairs st).dedup,
      (decide (((ConceptLink.mk k.1 k.2 ((coPairs st).count k)).source = a ∧
        (ConceptLink.mk k.1 k.2 ((coPairs st).count k)).target = b) ∨
       ((ConceptLink.mk k.1 k.2 ((coPairs st).count k)).source = b ∧
        (ConceptLink.mk k.1 k.2 ((coPairs st).count k)).target = a)))
        = decide (k = (a, b)) := by
    intro k hk
    have hklt : k.1 < k.2 := coPairs_lt st k (List.mem_dedup.mp hk)
    apply decide_eq_decide.mpr
    constructor
    · rintro (⟨h1, h2⟩ | ⟨h1, h2⟩)
      · show k = (a, b)
        have hke : k = (k.1, k.2) := rfl
        rw [hke]
        rw [show (ConceptLink.mk k.1 k.2 ((coPairs st).count k)).source =
          k.1 from rfl] at h1
        rw [show (ConceptLink.mk k.1 k.2 ((coPairs st).count k)).target =
          k.2 from rfl] at h2
        rw [h1, h2]
      · exfalso
        rw [show (ConceptLink.mk k.1 k.2 ((coPairs st).count k)).source =
          k.1 from rfl] at h1
        rw [show (ConceptLink.mk k.1 k.2 ((coPairs st).count k)).target =
          k.2 from rfl] at h2
        rw [h1, h2] at hklt
        exact lt_asymm hab hklt
    · intro hk2
      left
      exact ⟨congrArg Prod.fst hk2, congrArg Prod.snd hk2⟩
  constructor
  · rw [← List.countP_eq_length_filter, hlinks, List.countP_map]
    rw [List.countP_congr (fun k hk => by
      rw [show ((fun e : ConceptLink =>
        decide ((e.source = a ∧ e.target = b) ∨
          (e.source = b ∧ e.target = a))) ∘
        (fun k : String × String =>
          ConceptLink.mk k.1 k.2 ((coPairs st).count k))) k =
        decide (((ConceptLink.mk k.1 k.2 ((coPairs st).count k)).source = a ∧
          (ConceptLink.mk k.1 k.2 ((coPairs st).count k)).target = b) ∨
         ((ConceptLink.mk k.1 k.2 ((coPairs st).count k)).source = b ∧
          (ConceptLink.mk k.1 k.2 ((coPairs st).count k)).target = a))
        from rfl, hcongr k hk])]
    by_cases hm : (a, b) ∈ (coPairs st).dedup
    · rw [countP_eq_one_of_nodup_mem _ _ (List.nodup_dedup _) hm,
        if_pos (List.mem_dedup.mp hm)]
    · rw [countP_eq_zero_of_not_mem _ _ hm,
        if_neg (fun h => hm (List.mem_dedup.mpr h))]
  · intro e he
    rw [hlinks] at he
    rcases List.mem_filter.mp he with ⟨hmem, hpred⟩
    rcases List.mem_map.mp hmem with ⟨k, hk, rfl⟩
    have hkab : k = (a, b) := by
      have := hcongr k hk
      rw [this] at hpred
      simpa using hpred
    rw [hkab]

/-- Claim C3: for distinct concepts a and b over any call sequence, the
concept graph holds exactly one edge between them (in either
orientation) precisely when some interaction is linked to both, never
two edges, and that edge weighs the number of interactions linked to
both. -/
theorem getConceptGraph_pair_edge (ops : List Op) (a b : String)
    (hab : a ≠ b) :
    ((((getConceptGraph (runTrace ops)).links.filter
        (fun e => (e.source = a ∧ e.target = b) ∨
                  (e.source = b ∧ e.target = a))).length = 1) ↔
      (∃ i : String, (i, a) ∈ (runTrace ops).interaction_concepts ∧
        (i, b) ∈ (runTrace ops).interaction_concepts)) ∧
    (((getConceptGraph (runTrace ops)).links.filter
        (fun e => (e.source = a ∧ e.target = b) ∨
                  (e.source = b ∧ e.target = a))).length ≤ 1) ∧
    (∀ e ∈ (getConceptGraph (runTrace ops)).links.filter
        (fun e => (e.source = a ∧ e.target = b) ∨
                  (e.source = b ∧ e.target = a)),
      e.weight = (idsBoth (runTrace ops) a b).length) := by
  have hnd : (runTrace ops).interaction_concepts.Nodup :=
    icNodup_runFrom ops emptyStore (by simp [emptyStore])
  rcases lt_trichotomy a b with hlt | heq | hgt
  · obtain ⟨hlen, hw⟩ := graph_edges_core (runTrace ops) a b hlt
    refine ⟨?_, ?_, ?_⟩
    · rw [hlen]
      by_cases hm : (a, b) ∈ coPairs (runTrace ops)
      · rw [if_pos hm]
        exact ⟨fun _ => ((mem_coPairs _ a b).mp hm).2, fun _ => rfl⟩
      · rw [if_neg hm]
        constructor
        · intro h01
          simp at h01
        · intro hex
          exact absurd ((mem_coPairs _ a b).mpr ⟨hlt, hex⟩) hm
    · rw [hlen]
      split <;> omega
    · intro e he
      rw [hw e he, count_coPairs _ a b hnd hlt,
        rowNumBoth_eq_idsBoth _ a b hnd]
  · exact absurd heq hab
  · have hfilter : ((getConceptGraph (runTrace ops)).links.filter
        (fun e => (e.source = a ∧ e.target = b) ∨
                  (e.source = b ∧ e.target = a)))
        = ((getConceptGraph (runTrace ops)).links.filter
        (fun e => (e.source = b ∧ e.target = a) ∨
                  (e.source = a ∧ e.target = b))) := by
      apply List.filter_congr
      intro e _
      exact decide_eq_decide.mpr or_comm
    obtain ⟨hlen, hw⟩ := graph_edges_core (runTrace ops) b a hgt
    refine ⟨?_, ?_, ?_⟩
    · rw [hfilter, hlen]
      by_cases hm : (b, a) ∈ coPairs (runTrace ops)
      · rw [if_pos hm]
        constructor
        · intro _
          obtain ⟨i, hib, hia⟩ := ((mem_coPairs _ b a).mp hm).2
          exact ⟨i, hia, hib⟩
        · intro _
          rfl
      · rw [if_neg hm]
        constructor
        · intro h01
          simp at h01
        · intro hex
          obtain ⟨i, hia, hib⟩ := hex
          exact absurd ((mem_coPairs _ b a).mpr ⟨hgt, i, hib, hia⟩) hm
    · rw [hfilter, hlen]
      split <;> omega
    · intro e he
      rw [hfilter] at he
      rw [hw e he, count_coPairs _ b a hnd hgt,
        rowNumBoth_eq_idsBoth _ b a hnd, ← idsBoth_comm]

/-- Witness for claim C3: concepts a and b co-occurring in the two
interactions i1 and i2. -/
theorem getConceptGraph_pair_edge_witness :
    (("concept-a" : String) ≠ "concept-b") ∧
    ((((getConceptGraph (runTrace
        [Op.linkConceptToInteraction "concept-a" "i1",
         Op.linkConceptToInteraction "concept-b" "i1",
         Op.linkConceptToInteraction "concept-a" "i2",
         Op.linkConceptToInteraction "concept-b" "i2"])).links.filter
        (fun e => (e.source = "concept-a" ∧ e.target = "concept-b") ∨
                  (e.source = "concept-b" ∧ e.target = "concept-a"))).length
        = 1) ↔
      (∃ i : String, (i, "concept-a") ∈ (runTrace
        [Op.linkConceptToInteraction "concept-a" "i1",
         Op.linkConceptToInteraction "concept-b" "i1",
         Op.linkConceptToInteraction "concept-a" "i2",
         Op.linkConceptToInteraction "concept-b" "i2"]).interaction_concepts
        ∧ (i, "concept-b") ∈ (runTrace
        [Op.linkConceptToInteraction "concept-a" "i1",
         Op.linkConceptToInteraction "concept-b" "i1",
         Op.linkConceptToInteraction "concept-a" "i2",
         Op.linkConceptToInteraction "concept-b" "i2"]).interaction_concepts)) := by
  have hab : ("concept-a" : String) ≠ "concept-b" := by decide
  exact ⟨hab, (getConceptGraph_pair_edge
    [Op.linkConceptToInteraction "concept-a" "i1",
     Op.linkConceptToInteraction "concept-b" "i1",
     Op.linkConceptToInteraction "concept-a" "i2",
     Op.linkConceptToInteraction "concept-b" "i2"]
    "concept-a" "concept-b" hab).1⟩

end ActivePaper
